import Mathlib

/-!
Verification of the connect-4 engine (board representation, win detector,
heuristic evaluator, minimax search with alpha-beta pruning).

The board is a pair of 64-bit occupancy masks, one per color.  Cell
(row r, column c) with r = 0 the top row and r = 5 the bottom row is bit
r*7+c; bits 42..48 are an always-occupied sentinel row "below" the bottom
row that makes the lowest-empty-cell scan branch-free.  Machine integers
are embedded as `Nat` with explicit complements/wraparound modulo 2^64.
-/

/-- The modulus 2^64 of the `u64` machine integers of the source. -/
def U64 : Nat := 2 ^ 64

/-- Bitwise complement on `u64`, embedded as xor with the all-ones word. -/
def compl64 (x : Nat) : Nat := x ^^^ (U64 - 1)

/-- Modelled from the spec: the geometry-constants module (`constants.rs`,
referenced by `board.rs` as `crate::constants` but not present in the
sources) provides "precomputed bit masks for each column, each row, the
full playable area, and a sentinel padding region".  `GAME_MASK` is the
42 playable cells, bits 0..41.  The concrete values are fixed by the unit
tests in `board.rs` (e.g. an empty board's mask is 0x0001FC0000000000). -/
def GAME_MASK : Nat := 2 ^ 42 - 1

/-- Modelled from the spec: the playable area together with the sentinel
row, bits 0..48. -/
def BOARD_MASK : Nat := 2 ^ 49 - 1

/-- Modelled from the spec: the board with only the sentinel row occupied,
bits 42..48 (value 0x0001FC0000000000, as asserted by the unit tests). -/
def EMPTY_BOARD : Nat := BOARD_MASK - GAME_MASK

/-- Modelled from the spec: `FILE[c]` is the mask of column `c`: bits
c, c+7, ..., c+35 (the six playable cells) and c+42 (the sentinel cell).
0x40810204081 has bits 0, 7, 14, 21, 28, 35, 42 set. -/
def FILE (c : Nat) : Nat := 0x40810204081 <<< c

/-- Modelled from the spec: `ROW[r]` is the mask of one board row, indexed
from the bottom: `ROW[0]` is the bottom row (bits 35..41) and `ROW[5]` the
top row (bits 0..6).  Only `ROW[5]` is used by the sources; its value is
fixed by `legal_files`, which reads the top cell of each column from
`empty() & ROW[5]` and is specified to return ascending column indices. -/
def ROW (r : Nat) : Nat := 0x7F <<< ((5 - r) * 7)

/-- Fuel-bounded population count; `n / 2` halves at every step, so fuel
64 is exact for every value below 2^64.  Embeds `u64::count_ones`. -/
def countOnesAux : Nat → Nat → Nat
  | 0, _ => 0
  | fuel + 1, n => if n = 0 then 0 else n % 2 + countOnesAux fuel (n / 2)

/-- Population count of a `u64` value. -/
def countOnes (n : Nat) : Nat := countOnesAux 64 n

/-- The two piece colors; `Red = 0`, `Yellow = 1` as in the source. -/
inductive Color where
  | Red : Color
  | Yellow : Color
deriving DecidableEq

/-- Numeric value of a color (`color as u64` in the source). -/
def Color.val : Color → Nat
  | .Red => 0
  | .Yellow => 1

/-- The opposing color (`Color::other`). -/
def Color.other : Color → Color
  | .Red => .Yellow
  | .Yellow => .Red

/-- The board: one occupancy mask per color (`struct Board { red: u64,
yellow: u64 }`). -/
structure Board where
  red : Nat
  yellow : Nat
deriving DecidableEq

namespace Board

/-- The empty board `Board::new()`: both masks hold exactly the sentinel row. -/
def new : Board := ⟨EMPTY_BOARD, EMPTY_BOARD⟩

/-- Union of both occupancy masks (`Board::all()`). -/
def all (b : Board) : Nat := b.red ||| b.yellow

/-- Complement of `all()` restricted to `BOARD_MASK` (`Board::empty()`). -/
def empty (b : Board) : Nat := compl64 (b.red ||| b.yellow) &&& BOARD_MASK

/-- The drop operation `Board::insert(file, color)`: the column mask is intersected with the
occupied cells, shifted down-to-up by one row, and intersected with the
empty cells, producing the drop cell; the cell is added to the moving
color's mask (multiplication by 0 or 1 selects the mask, as in the
source). -/
def insert (b : Board) (file : Nat) (color : Color) : Board :=
  let f := FILE file &&& b.all
  let cell := (f >>> 7) &&& compl64 b.all
  { red := b.red ||| cell * (color.val ^^^ 1),
    yellow := b.yellow ||| cell * color.val }

/-- The undo operation `Board::remove(file)`: isolate the least-significant occupied playable
bit of the column (`file & (!file + 1)`, with wrapping add) and clear it
from both masks. -/
def remove (b : Board) (file : Nat) : Board :=
  let f := FILE file &&& b.all &&& GAME_MASK
  let lsb := f &&& ((compl64 f + 1) % U64)
  { red := b.red &&& compl64 lsb,
    yellow := b.yellow &&& compl64 lsb }

/-- One shift-and-mask step of the directional scans: mask off the edge
cells that would wrap, shift by the direction's stride, and intersect with
the target mask. -/
def dirStep (edge s tgt m : Nat) : Nat := ((m &&& edge) >>> s) &&& tgt

/-- Three iterations of `dirStep`, as performed by the `for _ in 0..3`
loops of the source (the four directional accumulators are independent,
so the fused loop equals folding each direction separately). -/
def dirScan (edge s tgt pieces : Nat) : Nat :=
  dirStep edge s tgt (dirStep edge s tgt (dirStep edge s tgt pieces))

/-- The occupancy mask of one color (the `match color` selector used by
`has_connect_4`). -/
def colorMask (b : Board) : Color → Nat
  | Color.Yellow => b.yellow
  | Color.Red => b.red

/-- The win detector `Board::has_connect_4(color)`: after three shift-and-mask rounds in
each of the four directions, any surviving bit witnesses four aligned
pieces. -/
def hasConnect4 (b : Board) (color : Color) : Bool :=
  let pieces := b.colorMask color &&& GAME_MASK
  let horizontal := dirScan (compl64 (FILE 0)) 1 pieces pieces
  let vertical := dirScan (compl64 (ROW 5)) 7 pieces pieces
  let diagonal := dirScan (compl64 (ROW 5) &&& compl64 (FILE 6)) 6 pieces pieces
  let antidiagonal := dirScan (compl64 (ROW 5) &&& compl64 (FILE 0)) 8 pieces pieces
  horizontal ||| vertical ||| diagonal ||| antidiagonal ≠ 0

/-- Directional score of `Board::evaluate` for one color: the potential
count (scans continued through own-or-empty cells) plus 42 times the
connect-4 count (scans through own cells only), summed over the four
directions.  This mirrors the four repeated blocks of the source. -/
def evalSide (pieces emptyCellsMask : Nat) : Int :=
  let po := pieces ||| emptyCellsMask
  let h1 := dirScan (compl64 (FILE 0)) 1 po pieces
  let v1 := dirScan (compl64 (ROW 5)) 7 po pieces
  let d1 := dirScan (compl64 (ROW 5) &&& compl64 (FILE 6)) 6 po pieces
  let a1 := dirScan (compl64 (ROW 5) &&& compl64 (FILE 0)) 8 po pieces
  let h2 := dirScan (compl64 (FILE 0)) 1 pieces pieces
  let v2 := dirScan (compl64 (ROW 5)) 7 pieces pieces
  let d2 := dirScan (compl64 (ROW 5) &&& compl64 (FILE 6)) 6 pieces pieces
  let a2 := dirScan (compl64 (ROW 5) &&& compl64 (FILE 0)) 8 pieces pieces
  (countOnes (h1 &&& pieces) : Int) + countOnes (v1 &&& pieces)
    + countOnes (d1 &&& pieces) + countOnes (a1 &&& pieces)
    + 42 * ((countOnes (h2 &&& pieces) : Int) + countOnes (v2 &&& pieces)
      + countOnes (d2 &&& pieces) + countOnes (a2 &&& pieces))

/-- The heuristic `Board::evaluate()`: red's directional score minus yellow's.  The
source interleaves the eight scan blocks and accumulates into one signed
`score`; the grouping used here computes the same sum. -/
def evaluate (b : Board) : Int :=
  let redPieces := b.red &&& GAME_MASK
  let yellowPieces := b.yellow &&& GAME_MASK
  let e := b.empty
  evalSide redPieces e - evalSide yellowPieces e

/-- Fuel-bounded count of trailing zero bits (`u64::trailing_zeros` on a
nonzero argument). -/
def tzAux : Nat → Nat → Nat
  | 0, _ => 0
  | fuel + 1, x => if x % 2 = 1 then 0 else tzAux fuel (x / 2) + 1

/-- Fuel-bounded embedding of the `while top_row != 0` loop of
`Board::legal_files`: extract the least-significant set bit, record its
position, clear it.  The argument is below 2^7, so fuel 7 is exact. -/
def lsbLoop : Nat → Nat → List Nat
  | 0, _ => []
  | fuel + 1, x =>
    if x = 0 then []
    else
      let lsb := x &&& ((compl64 x + 1) % U64)
      tzAux 64 lsb :: lsbLoop fuel (x &&& (x - 1))

/-- The legal moves `Board::legal_files()`: positions of the empty top-row cells, in
ascending column order. -/
def legalFiles (b : Board) : List Nat := lsbLoop 7 (b.empty &&& ROW 5)

end Board

/-- The value `i32::MIN`, the initial best score of the maximizing branch and the
initial `alpha` of `best_move`. -/
def intMin : Int := -(2 ^ 31)

/-- The value `i32::MAX`, the initial best score of the minimizing branch and the
initial `beta` of `best_move`. -/
def intMax : Int := 2 ^ 31 - 1

/-- The maximizing (`Color::Red`) loop of `minimax`: insert, recurse
(through `rec`, the search at depth-1), undo, fold the score with `max`,
tighten `alpha`, and break as soon as `beta <= alpha`.  The board is
threaded exactly as the `&mut Board` of the source; the second component
of the result is the board as the loop leaves it. -/
def maxLoop (rec : Board → Int → Int → Int × Board) (color : Color) :
    List Nat → Board → Int → Int → Int → Int × Board
  | [], b, _, _, best => (best, b)
  | f :: fs, b, alpha, beta, best =>
    let b1 := b.insert f color
    let r := rec b1 alpha beta
    let b2 := r.2.remove f
    let best1 := max r.1 best
    let alpha1 := max best1 alpha
    if beta ≤ alpha1 then (best1, b2)
    else maxLoop rec color fs b2 alpha1 beta best1

/-- The minimizing (`Color::Yellow`) loop of `minimax`, dual to
`maxLoop`: fold with `min`, tighten `beta`, break when `beta <= alpha`. -/
def minLoop (rec : Board → Int → Int → Int × Board) (color : Color) :
    List Nat → Board → Int → Int → Int → Int × Board
  | [], b, _, _, best => (best, b)
  | f :: fs, b, alpha, beta, best =>
    let b1 := b.insert f color
    let r := rec b1 alpha beta
    let b2 := r.2.remove f
    let best1 := min r.1 best
    let beta1 := min best1 beta
    if beta1 ≤ alpha then (best1, b2)
    else minLoop rec color fs b2 alpha beta1 best1

/-- The search `minimax(board, color, depth, alpha, beta)`.  At depth 0 the position
is scored ±100 if the color that just moved has a connect-4 and 0
otherwise; at positive depth the matching loop runs over the legal files
computed from the incoming board.  Returns the score and the board as the
function leaves it (the source mutates a `&mut Board`). -/
def minimax : Nat → Board → Color → Int → Int → Int × Board
  | 0, b, c, _, _ =>
    (if b.hasConnect4 c.other then
      (match c with
        | Color.Red => (-100 : Int)
        | Color.Yellow => 100)
    else 0, b)
  | d + 1, b, c, alpha, beta =>
    match c with
    | Color.Red =>
      maxLoop (fun b1 a1 b2 => minimax d b1 Color.Yellow a1 b2) Color.Red
        b.legalFiles b alpha beta intMin
    | Color.Yellow =>
      minLoop (fun b1 a1 b2 => minimax d b1 Color.Red a1 b2) Color.Yellow
        b.legalFiles b alpha beta intMax

/-- The move selector `Minimax::best_move`: score every legal file on a private copy of the
board, then sort the (file, score) pairs — descending by score for Red,
ascending for Yellow — and return the first file.  Rust's
`sort_unstable_by` runs the core insertion sort on slices this short
(at most 7 elements), which is a stable sort; it is modelled by the
stable `List.insertionSort` with the same comparator.  Returns `none` on
a board without legal files (where the source would panic on the empty
index). -/
def bestMove (b : Board) (color : Color) (depth : Nat) : Option Nat :=
  let evals := b.legalFiles.map
    (fun f => (f, (minimax depth (b.insert f color) color.other intMin intMax).1))
  let sorted := match color with
    | Color.Red => List.insertionSort (fun x y : Nat × Int => y.2 ≤ x.2) evals
    | Color.Yellow => List.insertionSort (fun x y : Nat × Int => x.2 ≤ y.2) evals
  sorted.head?.map Prod.fst

/-- Errors of `Board::from_notation`, carrying the data that the source
interpolates into its messages: the row count for the cell-overflow
error, the cell offset for a misaligned row separator, and the offending
character otherwise. -/
inductive ParseErr where
  | overflow : Nat → ParseErr
  | misaligned : Nat → ParseErr
  | badChar : Char → ParseErr
deriving DecidableEq

/-- The character loop of `Board::from_notation`: `rows` is the
pre-computed `notation.split("/").count()` used by the overflow message,
`i` the current cell offset.  A digit advances the offset by its value,
`r`/`y` set a bit and advance by one, `/` checks its alignment. -/
def parseRun (rows : Nat) : List Char → Nat → Nat → Nat → Except ParseErr (Nat × Nat)
  | [], red, yellow, _ => .ok (red, yellow)
  | ch :: rest, red, yellow, i =>
    if 42 ≤ i then .error (.overflow rows)
    else if ch.isDigit then parseRun rows rest red yellow (i + (ch.toNat - 48))
    else if ch = 'r' then parseRun rows rest (red ||| (1 <<< i)) yellow (i + 1)
    else if ch = 'y' then parseRun rows rest red (yellow ||| (1 <<< i)) (i + 1)
    else if ch = '/' then
      if i % 7 ≠ 0 then .error (.misaligned i)
      else parseRun rows rest red yellow i
    else .error (.badChar ch)

/-- The layout parser (`Board::from_notation` in the source): parse a textual layout into a board, starting
from the empty board. -/
def fromLayout (s : String) : Except ParseErr Board :=
  match parseRun (s.data.count '/' + 1) s.data EMPTY_BOARD EMPTY_BOARD 0 with
  | .ok (r, y) => .ok ⟨r, y⟩
  | .error e => .error e

namespace Board

/-- The gravity invariant of the data model: within any column, every
occupied playable cell has an occupied cell below it (row 5 is the
bottom), so the occupied cells of a column form a contiguous run starting
at the bottom row. -/
def gravity (b : Board) : Prop :=
  ∀ c < 7, ∀ r < 5, b.all.testBit (r * 7 + c) = true →
    b.all.testBit ((r + 1) * 7 + c) = true

/-- Representation invariant of a `Board` value: both masks are `u64`
values and the sentinel row is occupied (as established by `Board::new`
and preserved by every operation). -/
def Wf (b : Board) : Prop :=
  b.red < U64 ∧ b.yellow < U64 ∧ EMPTY_BOARD &&& b.all = EMPTY_BOARD

/-- The spec's drop target: the lowest empty playable cell of a column,
as a row index (row 5 is the bottom); `none` when the column is full. -/
def lowestEmptyRow (b : Board) (col : Nat) : Option Nat :=
  ((List.range 6).filter (fun r => !(b.all.testBit (r * 7 + col)))).getLast?

/-- Number of empty playable cells of a board. -/
def emptyCells (b : Board) : Nat :=
  (List.range 42).countP (fun i => !(b.all.testBit i))

end Board

instance (b : Board) : Decidable (Board.gravity b) := by
  unfold Board.gravity; infer_instance

instance (b : Board) : Decidable (Board.Wf b) := by
  unfold Board.Wf; infer_instance

/-- Cells of the 4-in-a-row lines, by direction, written from the spec's
geometry (cell index = row*7+column, row 0 the top row): horizontal
lines. -/
def hLines : List (List Nat) :=
  (List.range 6).flatMap (fun r => (List.range 4).map
    (fun c => [r * 7 + c, r * 7 + c + 1, r * 7 + c + 2, r * 7 + c + 3]))

/-- Vertical 4-in-a-row lines. -/
def vLines : List (List Nat) :=
  (List.range 3).flatMap (fun r => (List.range 7).map
    (fun c => [r * 7 + c, (r + 1) * 7 + c, (r + 2) * 7 + c, (r + 3) * 7 + c]))

/-- Diagonal (down-left, bit stride 6) 4-in-a-row lines. -/
def dLines : List (List Nat) :=
  (List.range 3).flatMap (fun r => (List.range 4).map
    (fun c => [r * 7 + c + 3, (r + 1) * 7 + c + 2, (r + 2) * 7 + c + 1,
      (r + 3) * 7 + c]))

/-- Anti-diagonal (down-right, bit stride 8) 4-in-a-row lines. -/
def aLines : List (List Nat) :=
  (List.range 3).flatMap (fun r => (List.range 4).map
    (fun c => [r * 7 + c, (r + 1) * 7 + c + 1, (r + 2) * 7 + c + 2,
      (r + 3) * 7 + c + 3]))

/-- The spec's reading of the win condition on a piece mask: four aligned
cells, all set, in one of the four directions; only the 42 playable cells
are considered.  Stated over raw masks (the caller intersects with
`GAME_MASK`). -/
def SpecWin (m : Nat) : Prop :=
  (∃ r < 6, ∃ c, c + 3 < 7 ∧ m.testBit (r * 7 + c) = true ∧
    m.testBit (r * 7 + c + 1) = true ∧ m.testBit (r * 7 + c + 2) = true ∧
    m.testBit (r * 7 + c + 3) = true) ∨
  (∃ r, r + 3 < 6 ∧ ∃ c < 7, m.testBit (r * 7 + c) = true ∧
    m.testBit ((r + 1) * 7 + c) = true ∧ m.testBit ((r + 2) * 7 + c) = true ∧
    m.testBit ((r + 3) * 7 + c) = true) ∨
  (∃ r, r + 3 < 6 ∧ ∃ c, c + 3 < 7 ∧ m.testBit (r * 7 + c + 3) = true ∧
    m.testBit ((r + 1) * 7 + c + 2) = true ∧
    m.testBit ((r + 2) * 7 + c + 1) = true ∧
    m.testBit ((r + 3) * 7 + c) = true) ∨
  (∃ r, r + 3 < 6 ∧ ∃ c, c + 3 < 7 ∧ m.testBit (r * 7 + c) = true ∧
    m.testBit ((r + 1) * 7 + c + 1) = true ∧
    m.testBit ((r + 2) * 7 + c + 2) = true ∧
    m.testBit ((r + 3) * 7 + c + 3) = true)

/-- Number of pieces of `pieces` that lie on some line of `ls` whose every
cell is in `po` ("own-color or empty" for the potential count, "own-color"
for the realized count); written from the spec's description of the
evaluator. -/
def dirCount (pieces po : Nat) (ls : List (List Nat)) : Nat :=
  (List.range 42).countP (fun i => pieces.testBit i &&
    ls.any (fun L => L.contains i && L.all (fun j => po.testBit j)))

/-- One color's score as the spec describes it: pieces on a potential line
weighted 1 and pieces participating in a realized connect-4 weighted 42,
each per direction. -/
def specSide (pieces po : Nat) : Int :=
  ((dirCount pieces po hLines + dirCount pieces po vLines +
    dirCount pieces po dLines + dirCount pieces po aLines : Nat) : Int) +
  42 * ((dirCount pieces pieces hLines + dirCount pieces pieces vLines +
    dirCount pieces pieces dLines + dirCount pieces pieces aLines : Nat) : Int)

/-- The evaluator as the spec describes it: red's score minus yellow's. -/
def specEvaluate (b : Board) : Int :=
  let rp := b.red &&& GAME_MASK
  let yp := b.yellow &&& GAME_MASK
  let emp := compl64 (b.red ||| b.yellow) &&& GAME_MASK
  specSide rp (rp ||| emp) - specSide yp (yp ||| emp)

/-- Acceptance predicate of the parser, written from its observable
behavior: every character is a digit, `r`, `y` or `/`; a `/` only at a
multiple-of-7 cell offset; and no character is reached at cell offset 42
or beyond. -/
def goodRun : List Char → Nat → Bool
  | [], _ => true
  | ch :: rest, i =>
    decide (i < 42) &&
      ((ch.isDigit && goodRun rest (i + (ch.toNat - 48))) ||
       (ch == 'r' && goodRun rest (i + 1)) ||
       (ch == 'y' && goodRun rest (i + 1)) ||
       (ch == '/' && decide (i % 7 = 0) && goodRun rest i))

/-- Total number of board cells a layout string denotes, per the spec's
grammar: a digit stands for that many empty cells, `r` and `y` for one
piece each, `/` for none. -/
def consumedCells (s : String) : Nat :=
  s.data.foldl
    (fun a c => a + (if c.isDigit then c.toNat - 48
      else if c = 'r' ∨ c = 'y' then 1 else 0)) 0

/-- First extremum of a list under a relation `r`: the earliest element
related to every later extremum.  For a total preorder this is the head
of a stable sort by `r`. -/
def firstExtremum {α : Type} (r : α → α → Prop) [DecidableRel r] :
    List α → Option α
  | [] => none
  | a :: l =>
    match firstExtremum r l with
    | none => some a
    | some m => if r a m then some a else some m

/-- Boards reachable from `Board::new` or from a successful
`from_notation` parse by in-range insert and remove operations. -/
inductive Reachable : Board → Prop where
  | new : Reachable Board.new
  | layout (s : String) (b : Board) : fromLayout s = .ok b → Reachable b
  | ins (b : Board) (f : Nat) (c : Color) : f < 7 → Reachable b →
      Reachable (b.insert f c)
  | rem (b : Board) (f : Nat) : f < 7 → Reachable b → Reachable (b.remove f)

/-- A reachable board whose column 2 is full: six alternating inserts into
column 2 of the empty board. -/
def bFullCol : Board :=
  (((((Board.new.insert 2 .Red).insert 2 .Yellow).insert 2 .Red).insert
    2 .Yellow).insert 2 .Red).insert 2 .Yellow

/-- A board with a single red piece on the bottom-left cell (row 5,
column 0): one insert into column 0 of the empty board. -/
def bLone : Board := Board.new.insert 0 .Red

/-- A board where red can win immediately in column 0 only: red occupies
rows 3..5 of column 0, yellow has three harmless pieces. -/
def bWin : Board :=
  (((((Board.new.insert 0 .Red).insert 1 .Yellow).insert 0 .Red).insert
    1 .Yellow).insert 0 .Red).insert 2 .Yellow

/-- A nearly full board with an unstoppable red double threat: columns 0
and 4 are open down to row 3, red holds (2,1), (2,2), (2,3), every other
cell is occupied, and neither side has four in a row.  Inserting in
column 0 or in column 4 completes a red connect-4; yellow has no winning
insertion and cannot prevent red from winning on the following move. -/
def bC9 : Board := ⟨0x1FDD516839544, 0x1FE2AE978222A⟩

-- A few of the unit tests of `board.rs`, re-checked against the embedding
-- to pin down the modelled geometry constants.
example : ((Board.new.insert 2 .Yellow).yellow = 0x0001FC2000000000) := by decide
example : ((Board.new.insert 2 .Yellow).insert 2 .Red).red = 0x0001FC0040000000 := by
  decide
example : ((Board.new.insert 6 .Yellow).yellow = 0x0001FE0000000000) := by decide
example : ((Board.new.insert 6 .Yellow).insert 0 .Red).red = 0x0001FC0800000000 := by
  decide
example : Board.new.legalFiles = [0, 1, 2, 3, 4, 5, 6] := by decide
example : (fromLayout ("7/7/7/7/2yyy2/2rrrr1")).toOption.map (fun b => b.hasConnect4 .Red)
    = some true := by decide
example : (fromLayout ("7/7/7/7/2yyy2/2rrrr1")).toOption.map (fun b => b.hasConnect4 .Yellow)
    = some false := by decide
example : (fromLayout ("7/7/6y/r5y/r5y/r5y")).toOption.map (fun b => b.hasConnect4 .Yellow)
    = some true := by decide
example : (fromLayout ("7/7/3y3/2y3r/1y4r/y5r")).toOption.map (fun b => b.hasConnect4 .Yellow)
    = some true := by decide
example : (fromLayout ("r6/yr5/1yr4/2yr3/7/7")).toOption.map (fun b => b.hasConnect4 .Red)
    = some true := by decide
example : (fromLayout ("r6/yr5/1yr4/2yr3/7/7")).toOption.map (fun b => b.hasConnect4 .Yellow)
    = some false := by decide
example : (fromLayout ("7/7/7/7/7/7")).toOption = some Board.new := by decide

/-! ## Bit-level toolkit -/

theorem compl64_testBit (x i : Nat) :
    (compl64 x).testBit i = (x.testBit i ^^ decide (i < 64)) := by
  have h : (U64 - 1 : Nat) = 2 ^ 64 - 1 := rfl
  rw [compl64, Nat.testBit_xor, h, Nat.testBit_two_pow_sub_one]

theorem gameMask_testBit (i : Nat) : GAME_MASK.testBit i = decide (i < 42) :=
  Nat.testBit_two_pow_sub_one 42 i

theorem boardMask_testBit (i : Nat) : BOARD_MASK.testBit i = decide (i < 49) :=
  Nat.testBit_two_pow_sub_one 49 i

theorem bits_lt_two_pow {x n : Nat} (h : ∀ i, n ≤ i → x.testBit i = false) :
    x < 2 ^ n := by
  have hx : x = x % 2 ^ n := by
    refine (Nat.eq_of_testBit_eq fun i => ?_).symm
    rw [Nat.testBit_mod_two_pow]
    by_cases hi : i < n
    · simp [hi]
    · simp [hi, h i (le_of_not_lt hi)]
  rw [hx]
  exact Nat.mod_lt _ (Nat.pos_pow_of_pos n (by norm_num))

theorem testBit_false_of_ge {x n i : Nat} (hx : x < 2 ^ n) (hi : n ≤ i) :
    x.testBit i = false :=
  Nat.testBit_lt_two_pow (lt_of_lt_of_le hx (Nat.pow_le_pow_right (by norm_num) hi))

theorem sentinel_testBit (i : Nat) :
    EMPTY_BOARD.testBit i = (decide (42 ≤ i) && decide (i < 49)) := by
  by_cases h : i < 49
  · interval_cases i <;> decide
  · have hb : (EMPTY_BOARD : Nat) < 2 ^ 49 := by decide
    simp [testBit_false_of_ge hb (le_of_not_lt h), h]

theorem fileK_testBit (j : Nat) :
    (0x40810204081 : Nat).testBit j = (decide (j % 7 = 0) && decide (j < 43)) := by
  by_cases h : j < 43
  · interval_cases j <;> decide
  · have hb : (0x40810204081 : Nat) < 2 ^ 43 := by decide
    simp [testBit_false_of_ge hb (le_of_not_lt h), h]

theorem FILE_testBit (c i : Nat) :
    (FILE c).testBit i =
      (decide (c ≤ i) && (decide ((i - c) % 7 = 0) && decide (i - c < 43))) := by
  rw [FILE, Nat.testBit_shiftLeft, fileK_testBit]

theorem ROW5_testBit (i : Nat) : (ROW 5).testBit i = decide (i < 7) := by
  have h : ROW 5 = 0x7F := by decide
  rw [h]
  by_cases hi : i < 7
  · interval_cases i <;> decide
  · have hb : (0x7F : Nat) < 2 ^ 7 := by decide
    simp [testBit_false_of_ge hb (le_of_not_lt hi), hi]

theorem nonzero_iff_testBit (x : Nat) : x ≠ 0 ↔ ∃ i, x.testBit i = true := by
  constructor
  · exact Nat.ne_zero_implies_bit_true
  · rintro ⟨i, hi⟩ h0
    rw [h0, Nat.zero_testBit] at hi
    exact Bool.false_ne_true hi

theorem dirStep_testBit (edge s tgt m i : Nat) :
    (Board.dirStep edge s tgt m).testBit i =
      ((m.testBit (s + i) && edge.testBit (s + i)) && tgt.testBit i) := by
  simp [Board.dirStep, Nat.testBit_and, Nat.testBit_shiftRight]

theorem dirScan_testBit (edge s tgt p i : Nat) :
    (Board.dirScan edge s tgt p).testBit i =
      (p.testBit (3 * s + i) && edge.testBit (3 * s + i) &&
        (tgt.testBit (2 * s + i) && edge.testBit (2 * s + i)) &&
        (tgt.testBit (s + i) && edge.testBit (s + i)) && tgt.testBit i) := by
  rw [Board.dirScan, dirStep_testBit, dirStep_testBit, dirStep_testBit]
  have h1 : s + (s + i) = 2 * s + i := by ring
  have h2 : s + (2 * s + i) = 3 * s + i := by ring
  rw [h1, h2]
  cases p.testBit (3 * s + i) <;> cases edge.testBit (3 * s + i) <;>
    cases tgt.testBit (2 * s + i) <;> cases edge.testBit (2 * s + i) <;>
    cases tgt.testBit (s + i) <;> cases edge.testBit (s + i) <;>
    cases tgt.testBit i <;> rfl

theorem edgeH_iff {j : Nat} (hj : j < 64) :
    ((compl64 (FILE 0)).testBit j = true) ↔ ¬(j % 7 = 0 ∧ j < 43) := by
  have hd : decide (j < 64) = true := decide_eq_true hj
  rw [compl64_testBit, FILE_testBit, hd, Nat.sub_zero]
  simp
  tauto

theorem edgeV_iff {j : Nat} (hj : j < 64) :
    ((compl64 (ROW 5)).testBit j = true) ↔ 7 ≤ j := by
  have hd : decide (j < 64) = true := decide_eq_true hj
  rw [compl64_testBit, ROW5_testBit, hd]
  simp [Nat.not_lt]

theorem edgeD_iff {j : Nat} (hj : j < 64) :
    ((compl64 (ROW 5) &&& compl64 (FILE 6)).testBit j = true) ↔
      (7 ≤ j ∧ ¬(6 ≤ j ∧ (j - 6) % 7 = 0 ∧ j - 6 < 43)) := by
  have hd : decide (j < 64) = true := decide_eq_true hj
  rw [Nat.testBit_and, compl64_testBit, compl64_testBit, ROW5_testBit,
    FILE_testBit, hd]
  simp [Nat.not_lt, and_assoc]
  intro h
  constructor
  · intro hx h6 hm
    rcases hx with h1 | h2 | h3
    · omega
    · exact absurd hm h2
    · exact h3
  · intro hx
    by_cases hm : (j - 6) % 7 = 0
    · exact Or.inr (Or.inr (hx (by omega) hm))
    · exact Or.inr (Or.inl hm)

theorem edgeA_iff {j : Nat} (hj : j < 64) :
    ((compl64 (ROW 5) &&& compl64 (FILE 0)).testBit j = true) ↔
      (7 ≤ j ∧ ¬(j % 7 = 0 ∧ j < 43)) := by
  have hd : decide (j < 64) = true := decide_eq_true hj
  rw [Nat.testBit_and, compl64_testBit, compl64_testBit, ROW5_testBit,
    FILE_testBit, hd, Nat.sub_zero]
  simp [Nat.not_lt]
  intro h
  tauto

theorem scanH_iff {p : Nat} (hp : ∀ i, p.testBit i = true → i < 42) :
    Board.dirScan (compl64 (FILE 0)) 1 p p ≠ 0 ↔
      (∃ r < 6, ∃ c, c + 3 < 7 ∧ p.testBit (r * 7 + c) = true ∧
        p.testBit (r * 7 + c + 1) = true ∧ p.testBit (r * 7 + c + 2) = true ∧
        p.testBit (r * 7 + c + 3) = true) := by
  rw [nonzero_iff_testBit]
  constructor
  · rintro ⟨i, hi⟩
    rw [dirScan_testBit] at hi
    simp only [Bool.and_eq_true] at hi
    obtain ⟨⟨⟨⟨hp3, he3⟩, hp2, he2⟩, hp1, he1⟩, hp0⟩ := hi
    have hb0 : i < 42 := hp _ hp0
    have hb3 : 3 * 1 + i < 42 := hp _ hp3
    have e1 := (edgeH_iff (j := 1 + i) (by omega)).mp he1
    have e2 := (edgeH_iff (j := 2 * 1 + i) (by omega)).mp he2
    have e3 := (edgeH_iff (j := 3 * 1 + i) (by omega)).mp he3
    obtain ⟨r, c, hr, hc, rfl⟩ : ∃ r c, r < 6 ∧ c + 3 < 7 ∧ i = r * 7 + c :=
      ⟨i / 7, i % 7, by omega, by omega, by omega⟩
    refine ⟨r, hr, c, hc, hp0, ?_, ?_, ?_⟩
    · rw [show r * 7 + c + 1 = 1 + (r * 7 + c) from by omega]; exact hp1
    · rw [show r * 7 + c + 2 = 2 * 1 + (r * 7 + c) from by omega]; exact hp2
    · rw [show r * 7 + c + 3 = 3 * 1 + (r * 7 + c) from by omega]; exact hp3
  · rintro ⟨r, hr, c, hc, h0, h1, h2, h3⟩
    refine ⟨r * 7 + c, ?_⟩
    rw [dirScan_testBit]
    simp only [Bool.and_eq_true]
    refine ⟨⟨⟨⟨?_, ?_⟩, ?_, ?_⟩, ?_, ?_⟩, h0⟩
    · rw [show 3 * 1 + (r * 7 + c) = r * 7 + c + 3 from by omega]; exact h3
    · exact (edgeH_iff (by omega)).mpr (by omega)
    · rw [show 2 * 1 + (r * 7 + c) = r * 7 + c + 2 from by omega]; exact h2
    · exact (edgeH_iff (by omega)).mpr (by omega)
    · rw [show 1 + (r * 7 + c) = r * 7 + c + 1 from by omega]; exact h1
    · exact (edgeH_iff (by omega)).mpr (by omega)

theorem scanV_iff {p : Nat} (hp : ∀ i, p.testBit i = true → i < 42) :
    Board.dirScan (compl64 (ROW 5)) 7 p p ≠ 0 ↔
      (∃ r, r + 3 < 6 ∧ ∃ c < 7, p.testBit (r * 7 + c) = true ∧
        p.testBit ((r + 1) * 7 + c) = true ∧ p.testBit ((r + 2) * 7 + c) = true ∧
        p.testBit ((r + 3) * 7 + c) = true) := by
  rw [nonzero_iff_testBit]
  constructor
  · rintro ⟨i, hi⟩
    rw [dirScan_testBit] at hi
    simp only [Bool.and_eq_true] at hi
    obtain ⟨⟨⟨⟨hp3, he3⟩, hp2, he2⟩, hp1, he1⟩, hp0⟩ := hi
    have hb0 : i < 42 := hp _ hp0
    have hb3 : 3 * 7 + i < 42 := hp _ hp3
    obtain ⟨r, c, hr, hc, rfl⟩ : ∃ r c, r + 3 < 6 ∧ c < 7 ∧ i = r * 7 + c :=
      ⟨i / 7, i % 7, by omega, by omega, by omega⟩
    refine ⟨r, hr, c, hc, hp0, ?_, ?_, ?_⟩
    · rw [show (r + 1) * 7 + c = 7 + (r * 7 + c) from by omega]; exact hp1
    · rw [show (r + 2) * 7 + c = 2 * 7 + (r * 7 + c) from by omega]; exact hp2
    · rw [show (r + 3) * 7 + c = 3 * 7 + (r * 7 + c) from by omega]; exact hp3
  · rintro ⟨r, hr, c, hc, h0, h1, h2, h3⟩
    refine ⟨r * 7 + c, ?_⟩
    rw [dirScan_testBit]
    simp only [Bool.and_eq_true]
    refine ⟨⟨⟨⟨?_, ?_⟩, ?_, ?_⟩, ?_, ?_⟩, h0⟩
    · rw [show 3 * 7 + (r * 7 + c) = (r + 3) * 7 + c from by omega]; exact h3
    · exact (edgeV_iff (by omega)).mpr (by omega)
    · rw [show 2 * 7 + (r * 7 + c) = (r + 2) * 7 + c from by omega]; exact h2
    · exact (edgeV_iff (by omega)).mpr (by omega)
    · rw [show 7 + (r * 7 + c) = (r + 1) * 7 + c from by omega]; exact h1
    · exact (edgeV_iff (by omega)).mpr (by omega)

theorem scanD_iff {p : Nat} (hp : ∀ i, p.testBit i = true → i < 42) :
    Board.dirScan (compl64 (ROW 5) &&& compl64 (FILE 6)) 6 p p ≠ 0 ↔
      (∃ r, r + 3 < 6 ∧ ∃ c, c + 3 < 7 ∧ p.testBit (r * 7 + c + 3) = true ∧
        p.testBit ((r + 1) * 7 + c + 2) = true ∧
        p.testBit ((r + 2) * 7 + c + 1) = true ∧
        p.testBit ((r + 3) * 7 + c) = true) := by
  rw [nonzero_iff_testBit]
  constructor
  · rintro ⟨i, hi⟩
    rw [dirScan_testBit] at hi
    simp only [Bool.and_eq_true] at hi
    obtain ⟨⟨⟨⟨hp3, he3⟩, hp2, he2⟩, hp1, he1⟩, hp0⟩ := hi
    have hb0 : i < 42 := hp _ hp0
    have hb3 : 3 * 6 + i < 42 := hp _ hp3
    have e1 := (edgeD_iff (j := 6 + i) (by omega)).mp he1
    have e2 := (edgeD_iff (j := 2 * 6 + i) (by omega)).mp he2
    have e3 := (edgeD_iff (j := 3 * 6 + i) (by omega)).mp he3
    obtain ⟨r, c, hr, hc, rfl⟩ : ∃ r c, r + 3 < 6 ∧ c + 3 < 7 ∧ i = r * 7 + c + 3 :=
      ⟨i / 7, i % 7 - 3, by omega, by omega, by omega⟩
    refine ⟨r, hr, c, hc, hp0, ?_, ?_, ?_⟩
    · rw [show (r + 1) * 7 + c + 2 = 6 + (r * 7 + c + 3) from by omega]; exact hp1
    · rw [show (r + 2) * 7 + c + 1 = 2 * 6 + (r * 7 + c + 3) from by omega]; exact hp2
    · rw [show (r + 3) * 7 + c = 3 * 6 + (r * 7 + c + 3) from by omega]; exact hp3
  · rintro ⟨r, hr, c, hc, h0, h1, h2, h3⟩
    refine ⟨r * 7 + c + 3, ?_⟩
    rw [dirScan_testBit]
    simp only [Bool.and_eq_true]
    refine ⟨⟨⟨⟨?_, ?_⟩, ?_, ?_⟩, ?_, ?_⟩, h0⟩
    · rw [show 3 * 6 + (r * 7 + c + 3) = (r + 3) * 7 + c from by omega]; exact h3
    · exact (edgeD_iff (by omega)).mpr (by omega)
    · rw [show 2 * 6 + (r * 7 + c + 3) = (r + 2) * 7 + c + 1 from by omega]; exact h2
    · exact (edgeD_iff (by omega)).mpr (by omega)
    · rw [show 6 + (r * 7 + c + 3) = (r + 1) * 7 + c + 2 from by omega]; exact h1
    · exact (edgeD_iff (by omega)).mpr (by omega)

theorem scanA_iff {p : Nat} (hp : ∀ i, p.testBit i = true → i < 42) :
    Board.dirScan (compl64 (ROW 5) &&& compl64 (FILE 0)) 8 p p ≠ 0 ↔
      (∃ r, r + 3 < 6 ∧ ∃ c, c + 3 < 7 ∧ p.testBit (r * 7 + c) = true ∧
        p.testBit ((r + 1) * 7 + c + 1) = true ∧
        p.testBit ((r + 2) * 7 + c + 2) = true ∧
        p.testBit ((r + 3) * 7 + c + 3) = true) := by
  rw [nonzero_iff_testBit]
  constructor
  · rintro ⟨i, hi⟩
    rw [dirScan_testBit] at hi
    simp only [Bool.and_eq_true] at hi
    obtain ⟨⟨⟨⟨hp3, he3⟩, hp2, he2⟩, hp1, he1⟩, hp0⟩ := hi
    have hb0 : i < 42 := hp _ hp0
    have hb3 : 3 * 8 + i < 42 := hp _ hp3
    have e1 := (edgeA_iff (j := 8 + i) (by omega)).mp he1
    have e2 := (edgeA_iff (j := 2 * 8 + i) (by omega)).mp he2
    have e3 := (edgeA_iff (j := 3 * 8 + i) (by omega)).mp he3
    obtain ⟨r, c, hr, hc, rfl⟩ : ∃ r c, r + 3 < 6 ∧ c + 3 < 7 ∧ i = r * 7 + c :=
      ⟨i / 7, i % 7, by omega, by omega, by omega⟩
    refine ⟨r, hr, c, hc, hp0, ?_, ?_, ?_⟩
    · rw [show (r + 1) * 7 + c + 1 = 8 + (r * 7 + c) from by omega]; exact hp1
    · rw [show (r + 2) * 7 + c + 2 = 2 * 8 + (r * 7 + c) from by omega]; exact hp2
    · rw [show (r + 3) * 7 + c + 3 = 3 * 8 + (r * 7 + c) from by omega]; exact hp3
  · rintro ⟨r, hr, c, hc, h0, h1, h2, h3⟩
    refine ⟨r * 7 + c, ?_⟩
    rw [dirScan_testBit]
    simp only [Bool.and_eq_true]
    refine ⟨⟨⟨⟨?_, ?_⟩, ?_, ?_⟩, ?_, ?_⟩, h0⟩
    · rw [show 3 * 8 + (r * 7 + c) = (r + 3) * 7 + c + 3 from by omega]; exact h3
    · exact (edgeA_iff (by omega)).mpr (by omega)
    · rw [show 2 * 8 + (r * 7 + c) = (r + 2) * 7 + c + 2 from by omega]; exact h2
    · exact (edgeA_iff (by omega)).mpr (by omega)
    · rw [show 8 + (r * 7 + c) = (r + 1) * 7 + c + 1 from by omega]; exact h1
    · exact (edgeA_iff (by omega)).mpr (by omega)

theorem lor_ne_zero (x y : Nat) : x ||| y ≠ 0 ↔ x ≠ 0 ∨ y ≠ 0 := by
  rw [nonzero_iff_testBit, nonzero_iff_testBit, nonzero_iff_testBit]
  constructor
  · rintro ⟨i, hi⟩
    rw [Nat.testBit_or, Bool.or_eq_true] at hi
    rcases hi with h | h
    · exact Or.inl ⟨i, h⟩
    · exact Or.inr ⟨i, h⟩
  · rintro (⟨i, h⟩ | ⟨i, h⟩) <;> refine ⟨i, ?_⟩ <;>
      simp [Nat.testBit_or, h]

theorem pieces_bound (b : Board) (c : Color) :
    ∀ i, (b.colorMask c &&& GAME_MASK).testBit i = true → i < 42 := by
  intro i hi
  rw [Nat.testBit_and, Bool.and_eq_true, gameMask_testBit] at hi
  exact of_decide_eq_true hi.2

theorem hasConnect4_iff (b : Board) (c : Color) :
    b.hasConnect4 c = true ↔ SpecWin (b.colorMask c &&& GAME_MASK) := by
  have hp := pieces_bound b c
  rw [Board.hasConnect4, SpecWin]
  simp only [decide_eq_true_eq]
  rw [lor_ne_zero, lor_ne_zero, lor_ne_zero, scanH_iff hp, scanV_iff hp,
    scanD_iff hp, scanA_iff hp]
  simp only [or_assoc]

/-- C1: for every board, `has_connect_4(color)` returns true iff the
color's occupancy mask restricted to the 42 playable cells (`GAME_MASK`)
contains 4 consecutive aligned cells in one of the 4 directions
(horizontal, vertical, diagonal, anti-diagonal); in particular it is
false for both colors on the board produced by `Board::new()`, and
sentinel-row bits never contribute (the win condition reads only the
playable cells of the mask). -/
theorem C1_hasConnect4_iff_specWin :
    (∀ (b : Board) (c : Color),
      b.hasConnect4 c = true ↔ SpecWin (b.colorMask c &&& GAME_MASK)) ∧
    Board.new.hasConnect4 Color.Red = false ∧
    Board.new.hasConnect4 Color.Yellow = false :=
  ⟨hasConnect4_iff, by decide, by decide⟩

/-- C3: for every board, alpha, beta and color to move, `minimax` at
depth 0 returns +100 when `other(colorToMove)` has a connect-4 and is Red
(the maximizing color), -100 when the winner is Yellow (the minimizing
color), and 0 otherwise; the board is untouched and the heuristic
evaluator plays no part — the result is fully determined by
`has_connect_4` alone. -/
theorem C3_minimax_depth_zero (b : Board) (c : Color) (alpha beta : Int) :
    minimax 0 b c alpha beta =
      ((if b.hasConnect4 c.other = true then
        (if c.other = Color.Red then 100 else -100) else 0), b) := by
  cases c <;> simp [minimax, Color.other]

/-! ## Column structure under the gravity invariant -/

theorem col_chain {b : Board} {col : Nat} (hcol : col < 7)
    (hg : Board.gravity b) :
    ∀ r, r < 6 → b.all.testBit (r * 7 + col) = true →
      ∀ q, r ≤ q → q < 6 → b.all.testBit (q * 7 + col) = true := by
  intro r hr hocc q hrq
  induction q, hrq using Nat.le_induction with
  | base => exact fun _ => hocc
  | succ q hq ih => exact fun h6 => hg col hcol q (by omega) (ih (by omega))

theorem col_profile {b : Board} {col : Nat} (hcol : col < 7)
    (hg : Board.gravity b) :
    ∃ j, j ≤ 6 ∧ ∀ r, r < 6 →
      (b.all.testBit (r * 7 + col) = true ↔ j ≤ r) := by
  have chain := col_chain hcol hg
  by_cases h0 : b.all.testBit (0 * 7 + col) = true
  · exact ⟨0, by omega, fun r hr =>
      ⟨fun _ => Nat.zero_le r, fun _ => chain 0 (by omega) h0 r (Nat.zero_le r) hr⟩⟩
  by_cases h1 : b.all.testBit (1 * 7 + col) = true
  · refine ⟨1, by omega, fun r hr =>
      ⟨fun hocc => ?_, fun hkr => chain 1 (by omega) h1 r hkr hr⟩⟩
    by_contra hlt
    exact absurd (chain r hr hocc 0 (by omega) (by omega)) h0
  by_cases h2 : b.all.testBit (2 * 7 + col) = true
  · refine ⟨2, by omega, fun r hr =>
      ⟨fun hocc => ?_, fun hkr => chain 2 (by omega) h2 r hkr hr⟩⟩
    by_contra hlt
    exact absurd (chain r hr hocc 1 (by omega) (by omega)) h1
  by_cases h3 : b.all.testBit (3 * 7 + col) = true
  · refine ⟨3, by omega, fun r hr =>
      ⟨fun hocc => ?_, fun hkr => chain 3 (by omega) h3 r hkr hr⟩⟩
    by_contra hlt
    exact absurd (chain r hr hocc 2 (by omega) (by omega)) h2
  by_cases h4 : b.all.testBit (4 * 7 + col) = true
  · refine ⟨4, by omega, fun r hr =>
      ⟨fun hocc => ?_, fun hkr => chain 4 (by omega) h4 r hkr hr⟩⟩
    by_contra hlt
    exact absurd (chain r hr hocc 3 (by omega) (by omega)) h3
  by_cases h5 : b.all.testBit (5 * 7 + col) = true
  · refine ⟨5, by omega, fun r hr =>
      ⟨fun hocc => ?_, fun hkr => chain 5 (by omega) h5 r hkr hr⟩⟩
    by_contra hlt
    exact absurd (chain r hr hocc 4 (by omega) (by omega)) h4
  · refine ⟨6, by omega, fun r hr => ⟨fun hocc => ?_, fun h6r => by omega⟩⟩
    exact absurd (chain r hr hocc 5 (by omega) (by omega)) h5

theorem sentinel_occupied {b : Board} (hw : Board.Wf b) {c : Nat} (hc : c < 7) :
    b.all.testBit (42 + c) = true := by
  have h := hw.2.2
  have he : EMPTY_BOARD.testBit (42 + c) = true := by
    rw [sentinel_testBit]
    simp
    omega
  have h2 : (EMPTY_BOARD &&& b.all).testBit (42 + c) =
      EMPTY_BOARD.testBit (42 + c) := by rw [h]
  rw [Nat.testBit_and, he] at h2
  simpa using h2

theorem cell_eq {b : Board} {col j : Nat} (hcol : col < 7)
    (hsent : b.all.testBit (42 + col) = true) (hj : j ≤ 6)
    (hprof : ∀ r, r < 6 → (b.all.testBit (r * 7 + col) = true ↔ j ≤ r)) :
    ((FILE col &&& b.all) >>> 7) &&& compl64 b.all =
      if j = 0 then 0 else 2 ^ ((j - 1) * 7 + col) := by
  apply Nat.eq_of_testBit_eq
  intro i
  rw [Nat.testBit_and, Nat.testBit_shiftRight, Nat.testBit_and, FILE_testBit,
    compl64_testBit]
  by_cases hi64 : i < 64
  case neg =>
    have h1 : decide (7 + i - col < 43) = false := decide_eq_false (by omega)
    have h2 : (if j = 0 then (0 : Nat) else 2 ^ ((j - 1) * 7 + col)).testBit i
        = false := by
      split
      · exact Nat.zero_testBit i
      · rw [Nat.testBit_two_pow]
        exact decide_eq_false (by omega)
    rw [h1, h2]
    simp
  case pos =>
  rw [decide_eq_true hi64, Bool.xor_true]
  by_cases hform : ∃ m, m ≤ 5 ∧ i = m * 7 + col
  case neg =>
    have hfalse : (decide ((7 + i - col) % 7 = 0) && decide (7 + i - col < 43))
        = false := by
      by_contra hne
      rw [Bool.not_eq_false, Bool.and_eq_true, decide_eq_true_eq,
        decide_eq_true_eq] at hne
      exact hform ⟨(7 + i - col) / 7 - 1, by omega, by omega⟩
    have h2 : (if j = 0 then (0 : Nat) else 2 ^ ((j - 1) * 7 + col)).testBit i
        = false := by
      split
      case isTrue => exact Nat.zero_testBit i
      case isFalse hj0 =>
        rw [Nat.testBit_two_pow]
        refine decide_eq_false fun h => ?_
        exact hform ⟨j - 1, by omega, h.symm⟩
    rw [hfalse, h2]
    simp
  case pos =>
    obtain ⟨m, hm, rfl⟩ := hform
    rw [decide_eq_true (show col ≤ 7 + (m * 7 + col) by omega),
      decide_eq_true (show (7 + (m * 7 + col) - col) % 7 = 0 by omega),
      decide_eq_true (show 7 + (m * 7 + col) - col < 43 by omega)]
    simp only [Bool.and_true, Bool.true_and]
    rw [show 7 + (m * 7 + col) = (m + 1) * 7 + col from by omega]
    by_cases hm5 : m = 5
    · subst hm5
      rw [show (5 + 1) * 7 + col = 42 + col from by omega, hsent]
      have hp5 := hprof 5 (by omega)
      cases h5 : b.all.testBit (5 * 7 + col) with
      | true =>
        have hj5 : j ≤ 5 := hp5.mp h5
        have h2 : (if j = 0 then (0 : Nat) else 2 ^ ((j - 1) * 7 + col)).testBit
            (5 * 7 + col) = false := by
          split
          · exact Nat.zero_testBit _
          · rw [Nat.testBit_two_pow]
            exact decide_eq_false (by omega)
        rw [h2]
        rfl
      | false =>
        have hj6 : j = 6 := by
          by_contra hne
          have hle : j ≤ 5 := by omega
          rw [hp5.mpr hle] at h5
          exact absurd h5 (by simp)
        subst hj6
        have h2 : (if (6 : Nat) = 0 then (0 : Nat)
            else 2 ^ ((6 - 1) * 7 + col)).testBit (5 * 7 + col) = true := by
          rw [if_neg (by omega), Nat.testBit_two_pow]
          exact decide_eq_true (by omega)
        rw [h2]
        rfl
    · have hpA := hprof (m + 1) (by omega)
      have hpB := hprof m (by omega)
      cases hA : b.all.testBit ((m + 1) * 7 + col) with
      | false =>
        have hjA : ¬ j ≤ m + 1 := fun h => by
          rw [hpA.mpr h] at hA
          exact absurd hA (by simp)
        have h2 : (if j = 0 then (0 : Nat) else 2 ^ ((j - 1) * 7 + col)).testBit
            (m * 7 + col) = false := by
          split
          · exact Nat.zero_testBit _
          · rw [Nat.testBit_two_pow]
            exact decide_eq_false (by omega)
        rw [h2]
        rfl
      | true =>
        have hjA : j ≤ m + 1 := hpA.mp hA
        cases hB : b.all.testBit (m * 7 + col) with
        | true =>
          have hjB : j ≤ m := hpB.mp hB
          have h2 : (if j = 0 then (0 : Nat)
              else 2 ^ ((j - 1) * 7 + col)).testBit (m * 7 + col) = false := by
            split
            · exact Nat.zero_testBit _
            · rw [Nat.testBit_two_pow]
              exact decide_eq_false (by omega)
          rw [h2]
          rfl
        | false =>
          have hjB : ¬ j ≤ m := fun h => by
            rw [hpB.mpr h] at hB
            exact absurd hB (by simp)
          have hjm : j = m + 1 := by omega
          have h2 : (if j = 0 then (0 : Nat)
              else 2 ^ ((j - 1) * 7 + col)).testBit (m * 7 + col) = true := by
            rw [if_neg (by omega), Nat.testBit_two_pow]
            exact decide_eq_true (by omega)
          rw [h2]
          rfl

theorem lowestEmptyRow_eq {b : Board} {col j : Nat} (hj : j ≤ 6)
    (hprof : ∀ r, r < 6 → (b.all.testBit (r * 7 + col) = true ↔ j ≤ r)) :
    Board.lowestEmptyRow b col = if j = 0 then none else some (j - 1) := by
  unfold Board.lowestEmptyRow
  have hc : ∀ r ∈ List.range 6,
      (!(b.all.testBit (r * 7 + col))) = decide (r < j) := by
    intro r hr
    rw [List.mem_range] at hr
    have h := hprof r hr
    cases hb : b.all.testBit (r * 7 + col) with
    | true =>
      have := h.mp hb
      simp
      omega
    | false =>
      have hn : ¬ j ≤ r := fun hle => absurd (h.mpr hle ▸ hb) (by simp [h.mpr hle])
      simp
      omega
  rw [List.filter_congr hc]
  interval_cases j <;> decide

theorem insert_eq {b : Board} {col : Nat} (hw : Board.Wf b)
    (hg : Board.gravity b) (hcol : col < 7) (color : Color) :
    (∀ r, Board.lowestEmptyRow b col = some r →
      (b.insert col color).red = b.red |||
          (if color = Color.Red then 2 ^ (r * 7 + col) else 0) ∧
      (b.insert col color).yellow = b.yellow |||
          (if color = Color.Yellow then 2 ^ (r * 7 + col) else 0) ∧
      b.all.testBit (r * 7 + col) = false ∧ r * 7 + col < 42 ∧ r < 6) ∧
    (Board.lowestEmptyRow b col = none → b.insert col color = b) := by
  obtain ⟨j, hj, hprof⟩ := col_profile hcol hg
  have hcell := cell_eq hcol (sentinel_occupied hw hcol) hj hprof
  have hler := lowestEmptyRow_eq hj hprof
  have hins : b.insert col color =
      ⟨b.red ||| (if j = 0 then 0 else 2 ^ ((j - 1) * 7 + col)) *
          (color.val ^^^ 1),
        b.yellow ||| (if j = 0 then 0 else 2 ^ ((j - 1) * 7 + col)) *
          color.val⟩ := by
    unfold Board.insert
    simp only [hcell]
  constructor
  · intro r hr
    rw [hler] at hr
    by_cases hj0 : j = 0
    · rw [if_pos hj0] at hr
      cases hr
    · rw [if_neg hj0] at hr
      have hrj : r = j - 1 := by
        injection hr with h
        omega
      subst hrj
      have hfresh : b.all.testBit ((j - 1) * 7 + col) = false := by
        have h := hprof (j - 1) (by omega)
        cases hb : b.all.testBit ((j - 1) * 7 + col) with
        | true =>
          have := h.mp hb
          omega
        | false => rfl
      rw [hins]
      cases color <;>
        simp [Color.val, if_neg hj0, hfresh] <;>
        omega
  · intro hnone
    rw [hler] at hnone
    by_cases hj0 : j = 0
    · rw [hins, if_pos hj0]
      simp
    · rw [if_neg hj0] at hnone
      cases hnone

/-! ## The least-significant-bit trick `x & (!x + 1)` -/

theorem testBit_two_mul (a i : Nat) : (2 * a).testBit (i + 1) = a.testBit i := by
  rw [Nat.testBit_add_one]
  congr 1
  omega

theorem testBit_two_mul_zero (a : Nat) : (2 * a).testBit 0 = false := by
  rw [Nat.testBit_zero]
  simp

theorem testBit_two_mul_add_one (a i : Nat) :
    (2 * a + 1).testBit (i + 1) = a.testBit i := by
  rw [Nat.testBit_add_one]
  congr 1
  omega

theorem testBit_two_mul_add_one_zero (a : Nat) : (2 * a + 1).testBit 0 = true := by
  rw [Nat.testBit_zero]
  simp
  omega

theorem and_two_mul (a b : Nat) : (2 * a) &&& (2 * b) = 2 * (a &&& b) := by
  apply Nat.eq_of_testBit_eq
  intro i
  cases i with
  | zero => simp [Nat.testBit_and, testBit_two_mul_zero]
  | succ i => simp [Nat.testBit_and, testBit_two_mul]

theorem xor_allOnes_even {x w : Nat} (hw : 1 ≤ w) (hx : x % 2 = 0) :
    x ^^^ (2 ^ w - 1) = 2 * ((x / 2) ^^^ (2 ^ (w - 1) - 1)) + 1 := by
  apply Nat.eq_of_testBit_eq
  intro i
  cases i with
  | zero =>
    rw [Nat.testBit_xor, testBit_two_mul_add_one_zero, Nat.testBit_zero,
      Nat.testBit_two_pow_sub_one]
    have h1 : decide (x % 2 = 1) = false := decide_eq_false (by omega)
    have h2 : decide (0 < w) = true := decide_eq_true (by omega)
    rw [h1, h2]
    rfl
  | succ i =>
    rw [Nat.testBit_xor, testBit_two_mul_add_one, Nat.testBit_xor,
      Nat.testBit_add_one, Nat.testBit_two_pow_sub_one,
      Nat.testBit_two_pow_sub_one]
    congr 1
    by_cases h : i + 1 < w
    · rw [decide_eq_true h, decide_eq_true (show i < w - 1 by omega)]
    · rw [decide_eq_false h, decide_eq_false (show ¬ i < w - 1 by omega)]

theorem lsb_width : ∀ t x w, x < 2 ^ w → x.testBit t = true →
    (∀ i, i < t → x.testBit i = false) →
    x &&& (((x ^^^ (2 ^ w - 1)) + 1) % 2 ^ w) = 2 ^ t := by
  intro t
  induction t with
  | zero =>
    intro x w hxw hbit _
    have hodd : x % 2 = 1 := by
      rw [Nat.testBit_zero] at hbit
      exact of_decide_eq_true hbit
    have hw1 : 1 ≤ w := by
      by_contra h
      have : w = 0 := by omega
      subst this
      simp at hxw
      omega
    -- the complement is even, so adding one sets only bit 0
    have hceven : (x ^^^ (2 ^ w - 1)) % 2 = 0 := by
      have h0 : (x ^^^ (2 ^ w - 1)).testBit 0 = false := by
        rw [Nat.testBit_xor, Nat.testBit_zero, Nat.testBit_two_pow_sub_one,
          decide_eq_true hodd, decide_eq_true (show 0 < w by omega)]
        rfl
      rw [Nat.testBit_zero] at h0
      have := of_decide_eq_false h0
      omega
    apply Nat.eq_of_testBit_eq
    intro i
    cases i with
    | zero =>
      rw [Nat.testBit_and, Nat.testBit_mod_two_pow]
      have hy0 : ((x ^^^ (2 ^ w - 1)) + 1).testBit 0 = true := by
        rw [show (x ^^^ (2 ^ w - 1)) + 1 = 2 * ((x ^^^ (2 ^ w - 1)) / 2) + 1
          from by omega]
        exact testBit_two_mul_add_one_zero _
      rw [hy0, hbit, decide_eq_true (show 0 < w by omega)]
      rfl
    | succ i =>
      rw [Nat.testBit_and, Nat.testBit_mod_two_pow]
      have hy : ((x ^^^ (2 ^ w - 1)) + 1).testBit (i + 1) =
          (x ^^^ (2 ^ w - 1)).testBit (i + 1) := by
        rw [Nat.testBit_add_one, Nat.testBit_add_one]
        congr 1
        omega
      rw [hy, Nat.testBit_xor, Nat.testBit_two_pow_sub_one]
      have h2p : (2 ^ 0 : Nat).testBit (i + 1) = false := by
        rw [Nat.testBit_two_pow]
        exact decide_eq_false (by omega)
      rw [h2p]
      by_cases hiw : i + 1 < w
      · rw [decide_eq_true hiw]
        cases x.testBit (i + 1) <;> rfl
      · rw [decide_eq_false hiw, testBit_false_of_ge hxw (by omega)]
        rfl
  | succ t ih =>
    intro x w hxw hbit hlow
    have heven : x % 2 = 0 := by
      have h0 := hlow 0 (by omega)
      rw [Nat.testBit_zero] at h0
      have := of_decide_eq_false h0
      omega
    have hx2 : x = 2 * (x / 2) := by omega
    have hw1 : 1 ≤ w := by
      by_contra h
      have hx0 : x < 1 := by
        have : w = 0 := by omega
        subst this
        simpa using hxw
      have : x = 0 := by omega
      subst this
      rw [Nat.zero_testBit] at hbit
      exact absurd hbit (by simp)
    have hkey : ((x ^^^ (2 ^ w - 1)) + 1) % 2 ^ w =
        2 * ((((x / 2) ^^^ (2 ^ (w - 1) - 1)) + 1) % 2 ^ (w - 1)) := by
      rw [xor_allOnes_even hw1 heven]
      rw [show 2 * (x / 2 ^^^ (2 ^ (w - 1) - 1)) + 1 + 1 =
        2 * ((x / 2 ^^^ (2 ^ (w - 1) - 1)) + 1) from by ring]
      rw [show (2 : Nat) ^ w = 2 * 2 ^ (w - 1) from by
        rw [← pow_succ']
        congr 1
        omega]
      exact Nat.mul_mod_mul_left 2 _ _
    rw [hkey]
    nth_rewrite 1 [hx2]
    rw [and_two_mul]
    have hres := ih (x / 2) (w - 1)
      (by
        have : 2 * (x / 2) < 2 * 2 ^ (w - 1) := by
          rw [show (2 : Nat) * 2 ^ (w - 1) = 2 ^ w from by
            rw [← pow_succ']
            congr 1
            omega]
          omega
        omega)
      (by rw [← testBit_two_mul (x / 2) t, ← hx2]; exact hbit)
      (fun i hi => by
        rw [← testBit_two_mul (x / 2) i, ← hx2]
        exact hlow (i + 1) (by omega))
    rw [hres]
    rw [← pow_succ']

theorem lsb_spec {x t : Nat} (hx : x < U64) (hbit : x.testBit t = true)
    (hlow : ∀ i, i < t → x.testBit i = false) :
    x &&& ((compl64 x + 1) % U64) = 2 ^ t :=
  lsb_width t x 64 hx hbit hlow

/-! ## Legal files and preservation of the invariants by insert -/

theorem lsbLoop_eq : ∀ x, x < 128 →
    Board.lsbLoop 7 x = (List.range 7).filter (fun c => x.testBit c) := by
  decide

theorem legalFiles_eq (b : Board) :
    b.legalFiles = (List.range 7).filter (fun c => !(b.all.testBit c)) := by
  have he : b.empty &&& ROW 5 < 128 := by
    apply bits_lt_two_pow (n := 7)
    intro i hi
    rw [Nat.testBit_and, ROW5_testBit, decide_eq_false (by omega)]
    simp
  rw [Board.legalFiles, lsbLoop_eq _ he]
  apply List.filter_congr
  intro c hc
  rw [List.mem_range] at hc
  rw [Nat.testBit_and, ROW5_testBit, decide_eq_true hc, Bool.and_true,
    Board.empty, Nat.testBit_and, boardMask_testBit,
    decide_eq_true (show c < 49 by omega), Bool.and_true, compl64_testBit,
    decide_eq_true (show c < 64 by omega), Bool.xor_true]
  rfl

theorem mem_legalFiles {b : Board} {c : Nat} :
    c ∈ b.legalFiles ↔ c < 7 ∧ b.all.testBit c = false := by
  rw [legalFiles_eq, List.mem_filter, List.mem_range]
  simp

theorem lor_swap (x y z : Nat) : x ||| z ||| y = x ||| y ||| z := by
  apply Nat.eq_of_testBit_eq
  intro i
  simp only [Nat.testBit_or]
  cases x.testBit i <;> cases y.testBit i <;> cases z.testBit i <;> rfl

theorem lor_assoc' (x y z : Nat) : x ||| (y ||| z) = x ||| y ||| z := by
  apply Nat.eq_of_testBit_eq
  intro i
  simp only [Nat.testBit_or]
  cases x.testBit i <;> cases y.testBit i <;> cases z.testBit i <;> rfl

theorem insert_all_eq {b : Board} {col : Nat} (hw : Board.Wf b)
    (hg : Board.gravity b) (hcol : col < 7) (color : Color) {r : Nat}
    (hr : Board.lowestEmptyRow b col = some r) :
    (b.insert col color).all = b.all ||| 2 ^ (r * 7 + col) := by
  obtain ⟨h1, h2, _, _, _⟩ := (insert_eq hw hg hcol color).1 r hr
  rw [Board.all, Board.all, h1, h2]
  cases color <;> simp
  · exact lor_swap b.red b.yellow (2 ^ (r * 7 + col))
  · exact lor_assoc' b.red b.yellow (2 ^ (r * 7 + col))

theorem gravity_insert {b : Board} {col : Nat} (hw : Board.Wf b)
    (hg : Board.gravity b) (hcol : col < 7) (color : Color) {r : Nat}
    (hr : Board.lowestEmptyRow b col = some r) :
    Board.gravity (b.insert col color) := by
  obtain ⟨j, hj, hprof⟩ := col_profile hcol hg
  have hler := lowestEmptyRow_eq hj hprof
  have hall := insert_all_eq hw hg hcol color hr
  rw [hler] at hr
  by_cases hj0 : j = 0
  · rw [if_pos hj0] at hr
    cases hr
  rw [if_neg hj0] at hr
  have hrj : r = j - 1 := by
    injection hr with h
    omega
  intro c hc q hq hocc
  rw [hall, Nat.testBit_or, Bool.or_eq_true] at hocc ⊢
  rcases hocc with h | h
  · exact Or.inl (hg c hc q hq h)
  · rw [Nat.testBit_two_pow] at h
    have hidx : r * 7 + col = q * 7 + c := of_decide_eq_true h
    have hqc : q = r ∧ c = col := by omega
    obtain ⟨rfl, rfl⟩ := hqc
    refine Or.inl ?_
    exact (hprof (q + 1) (by omega)).mpr (by omega)

theorem cell_bits_high {b : Board} {col : Nat} (hcol : col < 7) :
    ∀ i, 43 ≤ i → ((FILE col &&& b.all) >>> 7 &&& compl64 b.all).testBit i
      = false := by
  intro i hi
  rw [Nat.testBit_and, Nat.testBit_shiftRight, Nat.testBit_and, FILE_testBit,
    decide_eq_false (show ¬ (7 + i - col < 43) by omega)]
  simp

theorem Wf_insert {b : Board} (hw : Board.Wf b) {col : Nat} (hcol : col < 7)
    (color : Color) : Board.Wf (b.insert col color) := by
  obtain ⟨hred, hyel, hsen⟩ := hw
  have hcell : ((FILE col &&& b.all) >>> 7 &&& compl64 b.all) < 2 ^ 64 := by
    apply bits_lt_two_pow
    intro i hi
    exact cell_bits_high hcol i (by omega)
  have hmul : ∀ v, v ≤ 1 →
      ((FILE col &&& b.all) >>> 7 &&& compl64 b.all) * v < 2 ^ 64 := by
    intro v hv
    calc ((FILE col &&& b.all) >>> 7 &&& compl64 b.all) * v
        ≤ ((FILE col &&& b.all) >>> 7 &&& compl64 b.all) * 1 :=
          Nat.mul_le_mul_left _ hv
      _ < 2 ^ 64 := by rw [Nat.mul_one]; exact hcell
  have hv1 : (color.val ^^^ 1) ≤ 1 := by cases color <;> decide
  have hv2 : color.val ≤ 1 := by cases color <;> decide
  refine ⟨?_, ?_, ?_⟩
  · show b.red ||| _ < U64
    apply bits_lt_two_pow (n := 64)
    intro i hi
    rw [Nat.testBit_or, testBit_false_of_ge hred hi,
      testBit_false_of_ge (hmul _ hv1) hi]
    rfl
  · show b.yellow ||| _ < U64
    apply bits_lt_two_pow (n := 64)
    intro i hi
    rw [Nat.testBit_or, testBit_false_of_ge hyel hi,
      testBit_false_of_ge (hmul _ hv2) hi]
    rfl
  · apply Nat.eq_of_testBit_eq
    intro i
    have hsi := congrArg (fun x => x.testBit i) hsen
    simp only [Nat.testBit_and] at hsi
    rw [Nat.testBit_and]
    cases he : EMPTY_BOARD.testBit i with
    | false => rfl
    | true =>
      rw [he, Bool.true_and] at hsi
      have hallo : b.all.testBit i = (b.red.testBit i || b.yellow.testBit i) :=
        Nat.testBit_or _ _ _
      have hthis : (b.insert col color).all.testBit i = true := by
        show ((b.red ||| _) ||| (b.yellow ||| _)).testBit i = true
        rw [Nat.testBit_or, Nat.testBit_or, Nat.testBit_or, Bool.or_eq_true,
          Bool.or_eq_true, Bool.or_eq_true]
        rw [hallo, Bool.or_eq_true] at hsi
        rcases hsi with h | h
        · exact Or.inl (Or.inl h)
        · exact Or.inr (Or.inl h)
      rw [hthis]
      rfl

theorem and_compl64_two_pow {m t : Nat} (hm : m < U64) (ht : t < 64)
    (hf : m.testBit t = false) :
    m &&& compl64 (2 ^ t) = m ∧ (m ||| 2 ^ t) &&& compl64 (2 ^ t) = m := by
  constructor
  · apply Nat.eq_of_testBit_eq
    intro i
    rw [Nat.testBit_and, compl64_testBit, Nat.testBit_two_pow]
    by_cases hti : t = i
    · subst hti
      rw [hf]
      simp
    · by_cases hi64 : i < 64
      · rw [decide_eq_false hti, decide_eq_true hi64]
        cases m.testBit i <;> rfl
      · rw [testBit_false_of_ge hm (by omega)]
        cases (decide (t = i) ^^ decide (i < 64)) <;> rfl
  · apply Nat.eq_of_testBit_eq
    intro i
    rw [Nat.testBit_and, Nat.testBit_or, compl64_testBit, Nat.testBit_two_pow]
    by_cases hti : t = i
    · subst hti
      rw [hf, decide_eq_true rfl, decide_eq_true ht]
      rfl
    · by_cases hi64 : i < 64
      · rw [decide_eq_false hti, decide_eq_true hi64]
        cases m.testBit i <;> rfl
      · rw [testBit_false_of_ge hm (by omega), decide_eq_false hti,
          decide_eq_false hi64]
        rfl

theorem insert_remove {b : Board} {col : Nat} (hw : Board.Wf b)
    (hg : Board.gravity b) (hcol : col < 7) (color : Color) {r : Nat}
    (hr : Board.lowestEmptyRow b col = some r) :
    (b.insert col color).remove col = b := by
  obtain ⟨j, hj, hprof⟩ := col_profile hcol hg
  have hler := lowestEmptyRow_eq hj hprof
  have hall := insert_all_eq hw hg hcol color hr
  obtain ⟨h1, h2, hfresh, hlt42, hr6⟩ := (insert_eq hw hg hcol color).1 r hr
  have hrj : r = j - 1 ∧ j ≠ 0 := by
    rw [hler] at hr
    by_cases hj0 : j = 0
    · rw [if_pos hj0] at hr
      cases hr
    · rw [if_neg hj0] at hr
      injection hr with h
      omega
  obtain ⟨hrj, hj0⟩ := hrj
  -- the argument of the lsb trick inside remove
  have hfbit : (FILE col &&& (b.insert col color).all &&& GAME_MASK).testBit
      (r * 7 + col) = true := by
    rw [Nat.testBit_and, Nat.testBit_and, FILE_testBit, hall, Nat.testBit_or,
      gameMask_testBit, Nat.testBit_two_pow,
      decide_eq_true (show col ≤ r * 7 + col by omega),
      decide_eq_true (show (r * 7 + col - col) % 7 = 0 by omega),
      decide_eq_true (show r * 7 + col - col < 43 by omega),
      decide_eq_true (show r * 7 + col = r * 7 + col from rfl),
      decide_eq_true (show r * 7 + col < 42 by omega)]
    simp
  have hflow : ∀ i, i < r * 7 + col →
      (FILE col &&& (b.insert col color).all &&& GAME_MASK).testBit i
        = false := by
    intro i hi
    rw [Nat.testBit_and, Nat.testBit_and, FILE_testBit, hall, Nat.testBit_or,
      gameMask_testBit, Nat.testBit_two_pow]
    by_cases hform : col ≤ i ∧ (i - col) % 7 = 0 ∧ i - col < 43 ∧ i < 42
    · obtain ⟨hf1, hf2, hf3, hf4⟩ := hform
      obtain ⟨m, hm6, rfl⟩ : ∃ m, m < 6 ∧ i = m * 7 + col :=
        ⟨(i - col) / 7, by omega, by omega⟩
      have hmj : ¬ j ≤ m := by omega
      have hocc : b.all.testBit (m * 7 + col) = false := by
        cases hb : b.all.testBit (m * 7 + col) with
        | true => exact absurd ((hprof m hm6).mp hb) hmj
        | false => rfl
      rw [hocc, decide_eq_false (show ¬ r * 7 + col = m * 7 + col by omega)]
      simp
    · -- some structural condition fails, so the conjunction is false
      by_cases hc1 : col ≤ i
      · by_cases hc2 : (i - col) % 7 = 0
        · by_cases hc3 : i - col < 43
          · have hc4 : ¬ i < 42 := by
              rcases Nat.lt_or_ge i 42 with h | h
              · exact absurd ⟨hc1, hc2, hc3, h⟩ hform
              · omega
            rw [decide_eq_false hc4]
            simp
          · rw [decide_eq_false hc3]
            simp
        · rw [decide_eq_false hc2]
          simp
      · rw [decide_eq_false hc1]
        simp
  have hflt : FILE col &&& (b.insert col color).all &&& GAME_MASK < U64 := by
    have h1 : FILE col &&& (b.insert col color).all &&& GAME_MASK
        ≤ GAME_MASK := Nat.and_le_right
    have h2 : GAME_MASK < U64 := by decide
    omega
  have hlsb := lsb_spec hflt hfbit hflow
  have hredf : b.red.testBit (r * 7 + col) = false := by
    cases hb : b.red.testBit (r * 7 + col) with
    | false => rfl
    | true =>
      have hcontra : b.all.testBit (r * 7 + col) = true := by
        show (b.red ||| b.yellow).testBit (r * 7 + col) = true
        rw [Nat.testBit_or, hb]
        rfl
      rw [hcontra] at hfresh
      cases hfresh
  have hyelf : b.yellow.testBit (r * 7 + col) = false := by
    cases hb : b.yellow.testBit (r * 7 + col) with
    | false => rfl
    | true =>
      have hcontra : b.all.testBit (r * 7 + col) = true := by
        show (b.red ||| b.yellow).testBit (r * 7 + col) = true
        rw [Nat.testBit_or, hb]
        cases b.red.testBit (r * 7 + col) <;> rfl
      rw [hcontra] at hfresh
      cases hfresh
  have hw' := Wf_insert hw hcol color
  obtain ⟨hred', hyel', _⟩ := hw'
  obtain ⟨hred, hyel, _⟩ := hw
  have ht64 : r * 7 + col < 64 := by omega
  -- unfold remove and rewrite the isolated bit
  show Board.mk _ _ = b
  simp only [hlsb]
  have hredeq : (b.insert col color).red &&& compl64 (2 ^ (r * 7 + col))
      = b.red := by
    rw [h1]
    cases color
    · rw [if_pos rfl]
      exact (and_compl64_two_pow hred ht64 hredf).2
    · rw [if_neg (by decide)]
      rw [Nat.or_zero]
      exact (and_compl64_two_pow hred ht64 hredf).1
  have hyeleq : (b.insert col color).yellow &&& compl64 (2 ^ (r * 7 + col))
      = b.yellow := by
    rw [h2]
    cases color
    · rw [if_neg (by decide)]
      rw [Nat.or_zero]
      exact (and_compl64_two_pow hyel ht64 hyelf).1
    · rw [if_pos rfl]
      exact (and_compl64_two_pow hyel ht64 hyelf).2
  rw [hredeq, hyeleq]

/-- C5: for a well-formed board satisfying gravity and a column in [0,6],
if the column is not full (`lowestEmptyRow` returns some row r) then
`insert` marks exactly one cell — the lowest empty playable cell of that
column, bit r*7+col, which was free — for the moving color and changes
nothing else; if the column is full (`lowestEmptyRow` is `none`) then
`insert` leaves both occupancy masks unchanged, writing nothing outside
the playable area. -/
theorem C5_insert_drops_lowest (b : Board) (col : Nat) (color : Color)
    (hw : Board.Wf b) (hg : Board.gravity b) (hcol : col < 7) :
    (∀ r, Board.lowestEmptyRow b col = some r →
      (b.insert col color).red = b.red |||
          (if color = Color.Red then 2 ^ (r * 7 + col) else 0) ∧
      (b.insert col color).yellow = b.yellow |||
          (if color = Color.Yellow then 2 ^ (r * 7 + col) else 0) ∧
      b.all.testBit (r * 7 + col) = false ∧ r * 7 + col < 42 ∧ r < 6) ∧
    (Board.lowestEmptyRow b col = none → b.insert col color = b) :=
  insert_eq hw hg hcol color

/-- C5 witness: inserting red into column 0 of the empty board drops to
row 5 (bit 35), the bottom playable cell. -/
theorem C5_insert_drops_lowest_witness :
    (Board.new.insert 0 Color.Red).red = Board.new.red |||
        (if Color.Red = Color.Red then 2 ^ (5 * 7 + 0) else 0) ∧
    (Board.new.insert 0 Color.Red).yellow = Board.new.yellow |||
        (if Color.Red = Color.Yellow then 2 ^ (5 * 7 + 0) else 0) ∧
    Board.new.all.testBit (5 * 7 + 0) = false ∧ 5 * 7 + 0 < 42 ∧ 5 < 6 :=
  (C5_insert_drops_lowest Board.new 0 Color.Red (by decide) (by decide)
    (by decide)).1 5 (by decide)

/-- C6 counterexample: on the reachable board whose column 2 is full,
`insert(2, Yellow)` is a no-op but `remove(2)` still clears the topmost
piece of the column, so insert-then-remove does not restore the masks:
the claim fails as stated for every board, column and color. -/
theorem C6_counterexample :
    Reachable bFullCol ∧ (bFullCol.insert 2 Color.Yellow).remove 2 ≠ bFullCol :=
  ⟨Reachable.ins _ 2 .Yellow (by omega)
    (Reachable.ins _ 2 .Red (by omega)
      (Reachable.ins _ 2 .Yellow (by omega)
        (Reachable.ins _ 2 .Red (by omega)
          (Reachable.ins _ 2 .Yellow (by omega)
            (Reachable.ins _ 2 .Red (by omega) Reachable.new))))),
    by decide⟩

/-- C6 (amended): for a well-formed board satisfying the gravity
invariant, a column in [0,6] that is not full, and any color,
`insert(col, color)` immediately followed by `remove(col)` restores both
occupancy masks exactly. -/
theorem C6_insert_remove_roundtrip (b : Board) (col : Nat) (color : Color)
    (hw : Board.Wf b) (hg : Board.gravity b) (hcol : col < 7) (r : Nat)
    (hr : Board.lowestEmptyRow b col = some r) :
    (b.insert col color).remove col = b :=
  insert_remove hw hg hcol color hr

/-- C6 witness: insert then remove on column 0 of the empty board is the
identity. -/
theorem C6_insert_remove_roundtrip_witness :
    (Board.new.insert 0 Color.Red).remove 0 = Board.new :=
  C6_insert_remove_roundtrip Board.new 0 Color.Red (by decide) (by decide)
    (by decide) 5 (by decide)

/-! ## Disjointness of the occupancy masks (playable cells) -/

theorem eq_zero_of_testBit {x : Nat} (h : ∀ i, x.testBit i = false) :
    x = 0 :=
  Nat.eq_of_testBit_eq fun i => by rw [h i, Nat.zero_testBit]

theorem cell_fresh {b : Board} {col : Nat} (hcol : col < 7) :
    ∀ i, ((FILE col &&& b.all) >>> 7 &&& compl64 b.all).testBit i = true →
      b.all.testBit i = false ∧ i < 43 := by
  intro i hi
  rw [Nat.testBit_and, Nat.testBit_shiftRight, Nat.testBit_and, FILE_testBit,
    compl64_testBit, Bool.and_eq_true, Bool.and_eq_true, Bool.and_eq_true,
    Bool.and_eq_true] at hi
  obtain ⟨⟨⟨_, _, h43⟩, _⟩, hx⟩ := hi
  have hi43 : i < 43 := by
    have := of_decide_eq_true h43
    omega
  refine ⟨?_, hi43⟩
  rw [decide_eq_true (show i < 64 by omega), Bool.xor_true,
    Bool.not_eq_true'] at hx
  exact hx

theorem insert_disjoint {b : Board} {f : Nat} {c : Color} (hf : f < 7)
    (h : b.red &&& b.yellow &&& GAME_MASK = 0) :
    (b.insert f c).red &&& (b.insert f c).yellow &&& GAME_MASK = 0 := by
  apply eq_zero_of_testBit
  intro i
  have hb := congrArg (fun x => x.testBit i) h
  simp only [Nat.testBit_and, Nat.zero_testBit] at hb
  show (((b.red ||| _ * _) &&& (b.yellow ||| _ * _)) &&& GAME_MASK).testBit i
    = false
  rw [Nat.testBit_and, Nat.testBit_and, Nat.testBit_or, Nat.testBit_or]
  cases c
  · show ((b.red.testBit i || (_ * (Color.val Color.Red ^^^ 1)).testBit i) &&
      (b.yellow.testBit i || (_ * Color.val Color.Red).testBit i) &&
      GAME_MASK.testBit i) = false
    simp only [Color.val, Nat.zero_xor, Nat.xor_self, Nat.mul_one,
      Nat.mul_zero, Nat.zero_testBit, Bool.or_false]
    cases hy : b.yellow.testBit i with
    | false => simp
    | true =>
      cases hr : b.red.testBit i with
      | true =>
        rw [hr, hy] at hb
        simpa using hb
      | false =>
        cases hc : ((FILE f &&& b.all) >>> 7 &&& compl64 b.all).testBit i with
        | false => rfl
        | true =>
          have := (cell_fresh hf i hc).1
          have hally : b.all.testBit i = true := by
            show (b.red ||| b.yellow).testBit i = true
            rw [Nat.testBit_or, hy]
            cases b.red.testBit i <;> rfl
          rw [hally] at this
          cases this
  · show ((b.red.testBit i || (_ * (Color.val Color.Yellow ^^^ 1)).testBit i) &&
      (b.yellow.testBit i || (_ * Color.val Color.Yellow).testBit i) &&
      GAME_MASK.testBit i) = false
    simp only [Color.val, Nat.zero_xor, Nat.xor_self, Nat.mul_one,
      Nat.mul_zero, Nat.zero_testBit, Bool.or_false]
    cases hr : b.red.testBit i with
    | false => simp
    | true =>
      cases hy : b.yellow.testBit i with
      | true =>
        rw [hr, hy] at hb
        simpa using hb
      | false =>
        cases hc : ((FILE f &&& b.all) >>> 7 &&& compl64 b.all).testBit i with
        | false => simp
        | true =>
          have := (cell_fresh hf i hc).1
          have hallr : b.all.testBit i = true := by
            show (b.red ||| b.yellow).testBit i = true
            rw [Nat.testBit_or, hr]
            rfl
          rw [hallr] at this
          cases this

theorem remove_disjoint {b : Board} {f : Nat}
    (h : b.red &&& b.yellow &&& GAME_MASK = 0) :
    (b.remove f).red &&& (b.remove f).yellow &&& GAME_MASK = 0 := by
  apply eq_zero_of_testBit
  intro i
  have hb := congrArg (fun x => x.testBit i) h
  simp only [Nat.testBit_and, Nat.zero_testBit] at hb
  show (((b.red &&& _) &&& (b.yellow &&& _)) &&& GAME_MASK).testBit i = false
  rw [Nat.testBit_and, Nat.testBit_and, Nat.testBit_and, Nat.testBit_and]
  cases hr : b.red.testBit i with
  | false => rfl
  | true =>
    cases hy : b.yellow.testBit i with
    | false =>
      cases ((compl64 _).testBit i) <;> rfl
    | true =>
      rw [hr, hy] at hb
      simp only [Bool.true_and] at hb
      rw [hb]
      cases ((compl64 _).testBit i) <;> rfl

theorem parseRun_disjoint :
    ∀ (chars : List Char) (rows red yellow i r' y' : Nat),
      red &&& yellow &&& GAME_MASK = 0 →
      (∀ j, i ≤ j → j < 42 → (red ||| yellow).testBit j = false) →
      parseRun rows chars red yellow i = .ok (r', y') →
      r' &&& y' &&& GAME_MASK = 0 := by
  intro chars
  induction chars with
  | nil =>
    intro rows red yellow i r' y' hdisj hfree hpr
    rw [parseRun] at hpr
    injection hpr with h
    injection h with h1 h2
    rw [← h1, ← h2]
    exact hdisj
  | cons ch rest ih =>
    intro rows red yellow i r' y' hdisj hfree hpr
    rw [parseRun] at hpr
    by_cases h42 : 42 ≤ i
    · rw [if_pos h42] at hpr
      cases hpr
    rw [if_neg h42] at hpr
    by_cases hd : ch.isDigit
    · rw [if_pos hd] at hpr
      exact ih rows red yellow _ r' y' hdisj
        (fun j hj hj42 => hfree j (by omega) hj42) hpr
    rw [if_neg hd] at hpr
    by_cases hrch : ch = 'r'
    · rw [if_pos hrch] at hpr
      refine ih rows _ yellow _ r' y' ?_ ?_ hpr
      · apply eq_zero_of_testBit
        intro k
        have hb := congrArg (fun x => x.testBit k) hdisj
        simp only [Nat.testBit_and, Nat.zero_testBit] at hb
        rw [Nat.testBit_and, Nat.testBit_and, Nat.testBit_or]
        cases hy : yellow.testBit k with
        | false => cases (red.testBit k || (1 <<< i).testBit k) <;> rfl
        | true =>
          cases hrk : red.testBit k with
          | true =>
            rw [hrk, hy] at hb
            simpa using hb
          | false =>
            have hsh : (1 <<< i).testBit k = false ∨ ¬ k < 42 := by
              by_cases hk42 : k < 42
              · refine Or.inl ?_
                cases hshift : (1 <<< i).testBit k with
                | false => rfl
                | true =>
                  have hik : k = i := by
                    rw [Nat.one_shiftLeft, Nat.testBit_two_pow] at hshift
                    exact (of_decide_eq_true hshift).symm
                  subst hik
                  have := hfree k (le_refl k) hk42
                  rw [Nat.testBit_or, hrk, hy] at this
                  cases this
              · exact Or.inr hk42
            rcases hsh with hsh | hsh
            · rw [hsh]
              rfl
            · rw [gameMask_testBit, decide_eq_false hsh]
              cases (1 <<< i).testBit k <;> rfl
      · intro j hj hj42
        have hfr := hfree j (by omega) hj42
        rw [Nat.testBit_or] at hfr ⊢
        rw [Nat.testBit_or]
        have hsh : (1 <<< i).testBit j = false := by
          rw [Nat.one_shiftLeft, Nat.testBit_two_pow]
          exact decide_eq_false (by omega)
        cases hrj : red.testBit j with
        | true => rw [hrj] at hfr; simp at hfr
        | false =>
          cases hyj : yellow.testBit j with
          | true => rw [hrj, hyj] at hfr; simp at hfr
          | false => rw [hsh]; rfl
    rw [if_neg hrch] at hpr
    by_cases hych : ch = 'y'
    · rw [if_pos hych] at hpr
      refine ih rows red _ _ r' y' ?_ ?_ hpr
      · apply eq_zero_of_testBit
        intro k
        have hb := congrArg (fun x => x.testBit k) hdisj
        simp only [Nat.testBit_and, Nat.zero_testBit] at hb
        rw [Nat.testBit_and, Nat.testBit_and, Nat.testBit_or]
        cases hrk : red.testBit k with
        | false => rfl
        | true =>
          cases hy : yellow.testBit k with
          | true =>
            rw [hrk, hy] at hb
            simpa using hb
          | false =>
            by_cases hk42 : k < 42
            · have hsh : (1 <<< i).testBit k = false := by
                cases hshift : (1 <<< i).testBit k with
                | false => rfl
                | true =>
                  have hik : k = i := by
                    rw [Nat.one_shiftLeft, Nat.testBit_two_pow] at hshift
                    exact (of_decide_eq_true hshift).symm
                  subst hik
                  have := hfree k (le_refl k) hk42
                  rw [Nat.testBit_or, hrk] at this
                  simp at this
              rw [hsh]
              cases GAME_MASK.testBit k <;> rfl
            · rw [gameMask_testBit, decide_eq_false hk42]
              cases (1 <<< i).testBit k <;> rfl
      · intro j hj hj42
        have hfr := hfree j (by omega) hj42
        rw [Nat.testBit_or] at hfr ⊢
        rw [Nat.testBit_or]
        have hsh : (1 <<< i).testBit j = false := by
          rw [Nat.one_shiftLeft, Nat.testBit_two_pow]
          exact decide_eq_false (by omega)
        cases hrj : red.testBit j with
        | true => rw [hrj] at hfr; simp at hfr
        | false =>
          cases hyj : yellow.testBit j with
          | true => rw [hrj, hyj] at hfr; simp at hfr
          | false => rw [hsh]; rfl
    rw [if_neg hych] at hpr
    by_cases hsch : ch = '/'
    · rw [if_pos hsch] at hpr
      by_cases hmod : i % 7 ≠ 0
      · rw [if_pos hmod] at hpr
        cases hpr
      · rw [if_neg hmod] at hpr
        exact ih rows red yellow i r' y' hdisj hfree hpr
    · rw [if_neg hsch] at hpr
      cases hpr

theorem fromLayout_disjoint {s : String} {b : Board}
    (h : fromLayout s = .ok b) : b.red &&& b.yellow &&& GAME_MASK = 0 := by
  rw [fromLayout] at h
  cases hpr : parseRun (s.data.count '/' + 1) s.data EMPTY_BOARD EMPTY_BOARD 0
    with
  | error e =>
    rw [hpr] at h
    cases h
  | ok p =>
    rw [hpr] at h
    injection h with h
    obtain ⟨r', y'⟩ := p
    have hd := parseRun_disjoint s.data _ EMPTY_BOARD EMPTY_BOARD 0 r' y'
      (by decide)
      (fun j _ hj42 => by
        rw [Nat.testBit_or, sentinel_testBit, decide_eq_false (by omega)]
        rfl)
      hpr
    rw [← h]
    exact hd

/-- C10 counterexample: the claim fails as stated already on
`Board::new()`, a reachable board: both masks contain the sentinel row,
so their bitwise AND is 0x0001FC0000000000, not zero. -/
theorem C10_counterexample :
    Reachable Board.new ∧ Board.new.red &&& Board.new.yellow ≠ 0 :=
  ⟨Reachable.new, by decide⟩

/-- C10 (amended): for every board reachable from `Board::new()` or from
a successful `from_notation` parse by in-range insert and remove
operations, the red and yellow occupancy masks restricted to the 42
playable cells are disjoint: `red AND yellow AND GAME_MASK = 0`, i.e.
every playable cell is occupied by at most one color (the sentinel row,
which both masks always contain, is excluded). -/
theorem C10_reachable_disjoint (b : Board) (h : Reachable b) :
    b.red &&& b.yellow &&& GAME_MASK = 0 := by
  induction h with
  | new => decide
  | layout s b hok => exact fromLayout_disjoint hok
  | ins b f c hf _ ih => exact insert_disjoint hf ih
  | rem b f hf _ ih => exact remove_disjoint ih

/-- C10 witness: the reachable board with one red piece has disjoint
playable masks. -/
theorem C10_reachable_disjoint_witness :
    bLone.red &&& bLone.yellow &&& GAME_MASK = 0 :=
  C10_reachable_disjoint bLone
    (Reachable.ins Board.new 0 Color.Red (by omega) Reachable.new)

/-! ## Parser acceptance and error classification -/

theorem parseRun_ok_iff :
    ∀ (chars : List Char) (rows red yellow i : Nat),
      (∃ p, parseRun rows chars red yellow i = .ok p) ↔
        goodRun chars i = true := by
  intro chars
  induction chars with
  | nil =>
    intro rows red yellow i
    constructor
    · intro _
      rfl
    · intro _
      exact ⟨(red, yellow), rfl⟩
  | cons ch rest ih =>
    intro rows red yellow i
    rw [parseRun, goodRun]
    by_cases h42 : 42 ≤ i
    · rw [if_pos h42, decide_eq_false (show ¬ i < 42 by omega)]
      simp only [Bool.false_and]
      constructor
      · rintro ⟨p, hp⟩
        cases hp
      · intro h
        cases h
    rw [if_neg h42, decide_eq_true (show i < 42 by omega)]
    simp only [Bool.true_and]
    by_cases hd : ch.isDigit
    · rw [if_pos hd, hd]
      have hrb : (ch == 'r') = false := by
        cases hbeq : ch == 'r'
        · rfl
        · have := eq_of_beq hbeq
          subst this
          exact absurd hd (by decide)
      have hyb : (ch == 'y') = false := by
        cases hbeq : ch == 'y'
        · rfl
        · have := eq_of_beq hbeq
          subst this
          exact absurd hd (by decide)
      have hsb : (ch == '/') = false := by
        cases hbeq : ch == '/'
        · rfl
        · have := eq_of_beq hbeq
          subst this
          exact absurd hd (by decide)
      rw [hrb, hyb, hsb]
      simp only [Bool.true_and, Bool.false_and, Bool.or_false]
      exact ih rows red yellow (i + (ch.toNat - 48))
    rw [if_neg hd]
    have hdf : ch.isDigit = false := by
      cases h : ch.isDigit
      · rfl
      · exact absurd h hd
    rw [hdf]
    simp only [Bool.false_and, Bool.false_or]
    by_cases hrch : ch = 'r'
    · rw [if_pos hrch]
      rw [show (ch == 'r') = true from beq_iff_eq.mpr hrch]
      have hyb : (ch == 'y') = false := by
        rw [hrch]
        decide
      have hsb : (ch == '/') = false := by
        rw [hrch]
        decide
      rw [hyb, hsb]
      simp only [Bool.true_and, Bool.false_and, Bool.or_false]
      exact ih rows _ yellow (i + 1)
    rw [if_neg hrch]
    have hrb : (ch == 'r') = false := beq_eq_false_iff_ne.mpr hrch
    rw [hrb]
    simp only [Bool.false_and, Bool.false_or]
    by_cases hych : ch = 'y'
    · rw [if_pos hych, show (ch == 'y') = true from beq_iff_eq.mpr hych]
      have hsb : (ch == '/') = false := by
        rw [hych]
        decide
      rw [hsb]
      simp only [Bool.true_and, Bool.false_and, Bool.or_false]
      exact ih rows red _ (i + 1)
    rw [if_neg hych]
    have hyb : (ch == 'y') = false := beq_eq_false_iff_ne.mpr hych
    rw [hyb]
    simp only [Bool.false_and, Bool.false_or]
    by_cases hsch : ch = '/'
    · rw [if_pos hsch, show (ch == '/') = true from beq_iff_eq.mpr hsch]
      simp only [Bool.true_and]
      by_cases hmod : i % 7 ≠ 0
      · rw [if_pos hmod, decide_eq_false (show ¬ i % 7 = 0 by omega)]
        simp only [Bool.false_and]
        constructor
        · rintro ⟨p, hp⟩
          cases hp
        · intro h
          cases h
      · rw [if_neg hmod, decide_eq_true (show i % 7 = 0 by omega)]
        simp only [Bool.true_and]
        exact ih rows red yellow i
    · rw [if_neg hsch, show (ch == '/') = false from beq_eq_false_iff_ne.mpr hsch]
      simp only [Bool.false_and]
      constructor
      · rintro ⟨p, hp⟩
        cases hp
      · intro h
        cases h

theorem parseRun_error_sound :
    ∀ (chars : List Char) (rows red yellow i : Nat) (e : ParseErr),
      parseRun rows chars red yellow i = .error e →
      (match e with
        | ParseErr.overflow n => n = rows
        | ParseErr.misaligned k => k % 7 ≠ 0
        | ParseErr.badChar c =>
            c.isDigit = false ∧ c ≠ 'r' ∧ c ≠ 'y' ∧ c ≠ '/') := by
  intro chars
  induction chars with
  | nil =>
    intro rows red yellow i e hpr
    cases hpr
  | cons ch rest ih =>
    intro rows red yellow i e hpr
    rw [parseRun] at hpr
    by_cases h42 : 42 ≤ i
    · rw [if_pos h42] at hpr
      injection hpr with h
      rw [← h]
    rw [if_neg h42] at hpr
    by_cases hd : ch.isDigit
    · rw [if_pos hd] at hpr
      exact ih rows red yellow _ e hpr
    rw [if_neg hd] at hpr
    by_cases hrch : ch = 'r'
    · rw [if_pos hrch] at hpr
      exact ih rows _ yellow _ e hpr
    rw [if_neg hrch] at hpr
    by_cases hych : ch = 'y'
    · rw [if_pos hych] at hpr
      exact ih rows red _ _ e hpr
    rw [if_neg hych] at hpr
    by_cases hsch : ch = '/'
    · rw [if_pos hsch] at hpr
      by_cases hmod : i % 7 ≠ 0
      · rw [if_pos hmod] at hpr
        injection hpr with h
        rw [← h]
        exact hmod
      · rw [if_neg hmod] at hpr
        exact ih rows red yellow i e hpr
    · rw [if_neg hsch] at hpr
      injection hpr with h
      rw [← h]
      have hdf : ch.isDigit = false := by
        cases h' : ch.isDigit
        · rfl
        · exact absurd h' hd
      exact ⟨hdf, hrch, hych, hsch⟩

/-- C8 counterexample: the claim requires success exactly on notations
whose total consumed cell count is 42, but `from_notation("7/7")`
succeeds while consuming only 14 cells. -/
theorem C8_counterexample :
    (∃ b, fromLayout ("7/7") = Except.ok b) ∧ consumedCells ("7/7") ≠ 42 :=
  ⟨⟨Board.new, by rfl⟩, by decide⟩

/-- C8 (amended): `from_notation` succeeds exactly on strings of digits
(0 through 9, each consuming its value in cells), `r`, `y` and `/`, where
every `/` occurs at a multiple-of-7 cell offset and no character is
reached at cell offset 42 or beyond; a total of exactly 42 cells is NOT
required (and digits are not limited to 1..7).  On failure the error
identifies the fault: the overflow error carries the row count of the
input, a misaligned separator error carries its (non-multiple-of-7)
offset, and the bad-character error carries the offending character,
which is outside the grammar's alphabet. -/
theorem C8_parse_characterization :
    (∀ s : String, (∃ b, fromLayout s = .ok b) ↔ goodRun s.data 0 = true) ∧
    (∀ (s : String) (e : ParseErr), fromLayout s = .error e →
      (match e with
        | ParseErr.overflow n => n = s.data.count '/' + 1
        | ParseErr.misaligned k => k % 7 ≠ 0
        | ParseErr.badChar c =>
            c.isDigit = false ∧ c ≠ 'r' ∧ c ≠ 'y' ∧ c ≠ '/')) := by
  constructor
  · intro s
    rw [← parseRun_ok_iff s.data (s.data.count '/' + 1) EMPTY_BOARD
      EMPTY_BOARD 0]
    constructor
    · rintro ⟨b, hb⟩
      rw [fromLayout] at hb
      cases hpr : parseRun (s.data.count '/' + 1) s.data EMPTY_BOARD
        EMPTY_BOARD 0 with
      | error e =>
        rw [hpr] at hb
        cases hb
      | ok p => exact ⟨p, rfl⟩
    · rintro ⟨p, hp⟩
      obtain ⟨r', y'⟩ := p
      refine ⟨⟨r', y'⟩, ?_⟩
      rw [fromLayout, hp]
  · intro s e he
    rw [fromLayout] at he
    cases hpr : parseRun (s.data.count '/' + 1) s.data EMPTY_BOARD
      EMPTY_BOARD 0 with
    | error e' =>
      rw [hpr] at he
      injection he with h
      rw [← h]
      exact parseRun_error_sound s.data _ EMPTY_BOARD EMPTY_BOARD 0 e' hpr
    | ok p =>
      rw [hpr] at he
      cases he

/-- Witness for C8: the input `"8/"` fails with a misaligned separator at
cell offset 8, and the characterization confirms that 8 is not a multiple
of 7. -/
theorem C8_parse_characterization_witness : (8 : Nat) % 7 ≠ 0 :=
  C8_parse_characterization.2 ("8/") (ParseErr.misaligned 8) (by rfl)

/-! ## Head of a stable insertion sort: the first extremum -/

theorem firstExtremum_none_iff {α : Type} (r : α → α → Prop) [DecidableRel r]
    (l : List α) : firstExtremum r l = none ↔ l = [] := by
  cases l with
  | nil => simp [firstExtremum]
  | cons a l =>
    simp only [firstExtremum]
    cases firstExtremum r l with
    | none => simp
    | some m =>
      by_cases h : r a m <;> simp [h]

theorem head_insertionSort {α : Type} (r : α → α → Prop) [DecidableRel r] :
    ∀ l : List α, (List.insertionSort r l).head? = firstExtremum r l := by
  intro l
  induction l with
  | nil => rfl
  | cons a l ih =>
    show (List.orderedInsert r a (List.insertionSort r l)).head? = _
    cases h : List.insertionSort r l with
    | nil =>
      rw [h] at ih
      simp only [List.head?] at ih
      simp only [List.orderedInsert, List.head?, firstExtremum, ← ih]
    | cons b t =>
      rw [h] at ih
      simp only [List.head?] at ih
      simp only [List.orderedInsert, firstExtremum, ← ih]
      by_cases hr : r a b <;> simp [hr]

theorem firstExtremum_min {α : Type} (r : α → α → Prop) [DecidableRel r]
    (htotal : ∀ a b, r a b ∨ r b a)
    (htrans : ∀ a b c, r a b → r b c → r a c) :
    ∀ (l : List α) (m : α), firstExtremum r l = some m →
      m ∈ l ∧ ∀ x ∈ l, r m x := by
  intro l
  induction l with
  | nil =>
    intro m h
    cases h
  | cons a l ih =>
    intro m h
    simp only [firstExtremum] at h
    cases hfe : firstExtremum r l with
    | none =>
      rw [hfe] at h
      have h' : some a = some m := h
      injection h' with h'
      subst h'
      have hl : l = [] := (firstExtremum_none_iff r l).mp hfe
      subst hl
      refine ⟨by simp, ?_⟩
      intro x hx
      rw [List.mem_singleton] at hx
      subst hx
      rcases htotal x x with h2 | h2 <;> exact h2
    | some m' =>
      rw [hfe] at h
      have h' : (if r a m' then some a else some m') = some m := h
      obtain ⟨hmem', hall'⟩ := ih m' hfe
      by_cases hr : r a m'
      · rw [if_pos hr] at h'
        injection h' with h'
        subst h'
        refine ⟨List.mem_cons_self a l, ?_⟩
        intro x hx
        rcases List.mem_cons.mp hx with rfl | hx
        · rcases htotal x x with h2 | h2 <;> exact h2
        · exact htrans a m' x hr (hall' x hx)
      · rw [if_neg hr] at h'
        injection h' with h'
        subst h'
        refine ⟨List.mem_cons_of_mem a hmem', ?_⟩
        intro x hx
        rcases List.mem_cons.mp hx with rfl | hx
        · rcases htotal m' x with h2 | h2
          · exact h2
          · exact absurd h2 hr
        · exact hall' x hx

theorem firstExtremum_first {α : Type} (r : α → α → Prop) [DecidableRel r] :
    ∀ (l : List α) (m : α), firstExtremum r l = some m →
      ∃ l1 l2, l = l1 ++ m :: l2 ∧ ∀ x ∈ l1, ¬ r x m := by
  intro l
  induction l with
  | nil =>
    intro m h
    cases h
  | cons a l ih =>
    intro m h
    simp only [firstExtremum] at h
    cases hfe : firstExtremum r l with
    | none =>
      rw [hfe] at h
      have h' : some a = some m := h
      injection h' with h'
      subst h'
      exact ⟨[], l, rfl, by simp⟩
    | some m' =>
      rw [hfe] at h
      have h' : (if r a m' then some a else some m') = some m := h
      by_cases hr : r a m'
      · rw [if_pos hr] at h'
        injection h' with h'
        subst h'
        exact ⟨[], l, rfl, by simp⟩
      · rw [if_neg hr] at h'
        injection h' with h'
        subst h'
        obtain ⟨l1, l2, heq, hl1⟩ := ih m' hfe
        refine ⟨a :: l1, l2, by rw [heq]; rfl, ?_⟩
        intro x hx
        rcases List.mem_cons.mp hx with rfl | hx
        · exact hr
        · exact hl1 x hx

theorem sorted_head_best (r : Nat × Int → Nat × Int → Prop) [DecidableRel r]
    (htotal : ∀ a b, r a b ∨ r b a)
    (htrans : ∀ a b c, r a b → r b c → r a c)
    (leg : List Nat) (sc : Nat → Int)
    (hpw : leg.Pairwise (· < ·)) (hne : leg ≠ []) :
    ∃ w, (List.insertionSort r (leg.map (fun f => (f, sc f)))).head?.map
        Prod.fst = some w ∧ w ∈ leg ∧
      (∀ f ∈ leg, r (w, sc w) (f, sc f)) ∧
      (∀ f ∈ leg, f < w → ¬ r (f, sc f) (w, sc w)) := by
  have hev : leg.map (fun f => (f, sc f)) ≠ [] := fun h =>
    hne (List.map_eq_nil_iff.mp h)
  cases hfe : firstExtremum r (leg.map (fun f => (f, sc f))) with
  | none => exact absurd ((firstExtremum_none_iff r _).mp hfe) hev
  | some m =>
    obtain ⟨hmem, hall⟩ := firstExtremum_min r htotal htrans _ m hfe
    obtain ⟨l1, l2, heq, hl1⟩ := firstExtremum_first r _ m hfe
    obtain ⟨w, hwleg, hwm⟩ := List.mem_map.mp hmem
    refine ⟨w, ?_, hwleg, ?_, ?_⟩
    · rw [head_insertionSort, hfe, ← hwm]
      rfl
    · intro f hf
      have hm : (f, sc f) ∈ leg.map (fun f => (f, sc f)) :=
        List.mem_map_of_mem _ hf
      have h := hall _ hm
      rw [← hwm] at h
      exact h
    · intro f hf hfw
      have hmemf : (f, sc f) ∈ leg.map (fun f => (f, sc f)) :=
        List.mem_map_of_mem _ hf
      rw [heq] at hmemf
      rcases List.mem_append.mp hmemf with h1 | h2
      · have h := hl1 _ h1
        rw [← hwm] at h
        exact h
      · rcases List.mem_cons.mp h2 with heqm | h2
        · rw [← hwm] at heqm
          injection heqm with hf1 _
          omega
        · have hplist : (leg.map (fun f => (f, sc f))).Pairwise
              (fun x y => x.1 < y.1) := by
            rw [List.pairwise_map]
            exact hpw
          rw [heq] at hplist
          have hp2 := (List.pairwise_append.mp hplist).2.1
          have hlt := (List.pairwise_cons.mp hp2).1 _ h2
          rw [← hwm] at hlt
          simp at hlt
          omega

/-- C2: for every board with at least one legal column, every color and
every depth, `best_move` returns, among the legal columns (enumerated in
ascending order), a column whose minimax score is optimal — highest when
the mover is Red (the maximizing side), lowest when Yellow — and among
columns of equal optimal score the lowest-indexed one: every legal column
strictly below the returned one scores strictly worse.  (`sort_unstable`
on at most 7 elements runs the stable core insertion sort, modelled by
`List.insertionSort`.) -/
theorem C2_bestMove_optimal (b : Board) (c : Color) (d : Nat)
    (hne : b.legalFiles ≠ []) :
    ∃ w, bestMove b c d = some w ∧ w ∈ b.legalFiles ∧
      (∀ f ∈ b.legalFiles,
        (c = Color.Red →
          (minimax d (b.insert f c) c.other intMin intMax).1 ≤
            (minimax d (b.insert w c) c.other intMin intMax).1) ∧
        (c = Color.Yellow →
          (minimax d (b.insert w c) c.other intMin intMax).1 ≤
            (minimax d (b.insert f c) c.other intMin intMax).1)) ∧
      (∀ f ∈ b.legalFiles, f < w →
        (minimax d (b.insert f c) c.other intMin intMax).1 ≠
          (minimax d (b.insert w c) c.other intMin intMax).1) := by
  have hpw : (b.legalFiles).Pairwise (· < ·) := by
    rw [legalFiles_eq]
    exact List.Pairwise.filter _ (List.pairwise_lt_range 7)
  cases c with
  | Red =>
    obtain ⟨w, hhead, hmem, hopt, hfirst⟩ :=
      sorted_head_best (fun x y : Nat × Int => y.2 ≤ x.2)
        (fun a b => le_total b.2 a.2)
        (fun a b c hab hbc => le_trans hbc hab) b.legalFiles
        (fun f => (minimax d (b.insert f Color.Red) Color.Red.other intMin
          intMax).1) hpw hne
    refine ⟨w, ?_, ?_, ?_, ?_⟩
    · exact hhead
    · exact hmem
    · intro f hf
      exact ⟨fun _ => hopt f hf, fun h => by cases h⟩
    · intro f hf hfw hEq
      exact hfirst f hf hfw (le_of_eq hEq.symm)
  | Yellow =>
    obtain ⟨w, hhead, hmem, hopt, hfirst⟩ :=
      sorted_head_best (fun x y : Nat × Int => x.2 ≤ y.2)
        (fun a b => le_total a.2 b.2)
        (fun a b c hab hbc => le_trans hab hbc) b.legalFiles
        (fun f => (minimax d (b.insert f Color.Yellow) Color.Yellow.other
          intMin intMax).1) hpw hne
    refine ⟨w, ?_, ?_, ?_, ?_⟩
    · exact hhead
    · exact hmem
    · intro f hf
      exact ⟨fun h => absurd h (by decide), fun _ => hopt f hf⟩
    · intro f hf hfw hEq
      exact hfirst f hf hfw (le_of_eq hEq)

/-- C2 witness: on the empty board at depth 0 the existence statement is
realized (all seven columns tie at score 0, and column 0 is returned). -/
theorem C2_bestMove_optimal_witness :
    ∃ w, bestMove Board.new Color.Red 0 = some w ∧
      w ∈ Board.new.legalFiles ∧
      (∀ f ∈ Board.new.legalFiles,
        (Color.Red = Color.Red →
          (minimax 0 (Board.new.insert f Color.Red) Color.Red.other intMin
            intMax).1 ≤
            (minimax 0 (Board.new.insert w Color.Red) Color.Red.other intMin
              intMax).1) ∧
        (Color.Red = Color.Yellow →
          (minimax 0 (Board.new.insert w Color.Red) Color.Red.other intMin
            intMax).1 ≤
            (minimax 0 (Board.new.insert f Color.Red) Color.Red.other intMin
              intMax).1)) ∧
      (∀ f ∈ Board.new.legalFiles, f < w →
        (minimax 0 (Board.new.insert f Color.Red) Color.Red.other intMin
          intMax).1 ≠
          (minimax 0 (Board.new.insert w Color.Red) Color.Red.other intMin
            intMax).1) :=
  C2_bestMove_optimal Board.new Color.Red 0 (by decide)

/-! ## The search restores the board on every exit path -/

theorem lowestEmptyRow_isSome_of_top_empty {b : Board} {f : Nat} (hf7 : f < 7)
    (hg : Board.gravity b) (htop : b.all.testBit f = false) :
    ∃ r, Board.lowestEmptyRow b f = some r := by
  obtain ⟨j, hj, hprof⟩ := col_profile hf7 hg
  have hler := lowestEmptyRow_eq hj hprof
  have hj0 : j ≠ 0 := by
    intro h0
    subst h0
    have h := (hprof 0 (by omega)).mpr (by omega)
    rw [show 0 * 7 + f = f from by omega] at h
    rw [h] at htop
    cases htop
  rw [hler, if_neg hj0]
  exact ⟨j - 1, rfl⟩

theorem maxLoop_restores (rec : Board → Int → Int → Int × Board) (c : Color)
    (hrec : ∀ b' alpha' beta', Board.Wf b' → Board.gravity b' →
      (rec b' alpha' beta').2 = b') :
    ∀ (fs : List Nat) (b : Board) (alpha beta best : Int),
      Board.Wf b → Board.gravity b → (∀ f ∈ fs, f ∈ b.legalFiles) →
      (maxLoop rec c fs b alpha beta best).2 = b := by
  intro fs
  induction fs with
  | nil =>
    intro b alpha beta best _ _ _
    rfl
  | cons f fs ih =>
    intro b alpha beta best hw hg hmem
    obtain ⟨hf7, hftop⟩ := mem_legalFiles.mp (hmem f (List.mem_cons_self f fs))
    obtain ⟨r, hr⟩ := lowestEmptyRow_isSome_of_top_empty hf7 hg hftop
    have hb1 : (rec (b.insert f c) alpha beta).2 = b.insert f c :=
      hrec _ _ _ (Wf_insert hw hf7 c) (gravity_insert hw hg hf7 c hr)
    have hback : ((rec (b.insert f c) alpha beta).2).remove f = b := by
      rw [hb1]
      exact insert_remove hw hg hf7 c hr
    simp only [maxLoop, hback]
    split
    · rfl
    · exact ih b _ beta _ hw hg (fun g hg' => hmem g (List.mem_cons_of_mem f hg'))

theorem minLoop_restores (rec : Board → Int → Int → Int × Board) (c : Color)
    (hrec : ∀ b' alpha' beta', Board.Wf b' → Board.gravity b' →
      (rec b' alpha' beta').2 = b') :
    ∀ (fs : List Nat) (b : Board) (alpha beta best : Int),
      Board.Wf b → Board.gravity b → (∀ f ∈ fs, f ∈ b.legalFiles) →
      (minLoop rec c fs b alpha beta best).2 = b := by
  intro fs
  induction fs with
  | nil =>
    intro b alpha beta best _ _ _
    rfl
  | cons f fs ih =>
    intro b alpha beta best hw hg hmem
    obtain ⟨hf7, hftop⟩ := mem_legalFiles.mp (hmem f (List.mem_cons_self f fs))
    obtain ⟨r, hr⟩ := lowestEmptyRow_isSome_of_top_empty hf7 hg hftop
    have hb1 : (rec (b.insert f c) alpha beta).2 = b.insert f c :=
      hrec _ _ _ (Wf_insert hw hf7 c) (gravity_insert hw hg hf7 c hr)
    have hback : ((rec (b.insert f c) alpha beta).2).remove f = b := by
      rw [hb1]
      exact insert_remove hw hg hf7 c hr
    simp only [minLoop, hback]
    split
    · rfl
    · exact ih b alpha _ _ hw hg (fun g hg' => hmem g (List.mem_cons_of_mem f hg'))

theorem minimax_restores :
    ∀ (d : Nat) (b : Board) (c : Color) (alpha beta : Int),
      Board.Wf b → Board.gravity b → (minimax d b c alpha beta).2 = b := by
  intro d
  induction d with
  | zero =>
    intro b c alpha beta _ _
    rfl
  | succ d ih =>
    intro b c alpha beta hw hg
    cases c with
    | Red =>
      exact maxLoop_restores _ Color.Red
        (fun b' a' b'' hw' hg' => ih b' Color.Yellow a' b'' hw' hg')
        b.legalFiles b alpha beta intMin hw hg (fun f hf => hf)
    | Yellow =>
      exact minLoop_restores _ Color.Yellow
        (fun b' a' b'' hw' hg' => ih b' Color.Red a' b'' hw' hg')
        b.legalFiles b alpha beta intMax hw hg (fun f hf => hf)

/-- C4: for every well-formed board satisfying the gravity invariant,
every color to move, depth, alpha and beta, `minimax` returns with the
board's two occupancy masks exactly as they were before the call — every
insert performed by the search loops is undone by the matching remove on
every exit path, including the early break taken when `beta <= alpha`.
(The second component of the embedded `minimax` is the board as the Rust
function leaves its `&mut Board` argument.) -/
theorem C4_minimax_preserves_board (b : Board) (c : Color) (d : Nat)
    (alpha beta : Int) (hw : Board.Wf b) (hg : Board.gravity b) :
    (minimax d b c alpha beta).2 = b :=
  minimax_restores d b c alpha beta hw hg

/-- C4 witness: a depth-2 search from the empty board hands the board
back unchanged. -/
theorem C4_minimax_preserves_board_witness :
    (minimax 2 Board.new Color.Red intMin intMax).2 = Board.new :=
  C4_minimax_preserves_board Board.new Color.Red 2 intMin intMax (by decide)
    (by decide)

/-- C7: divergence between `evaluate` and the spec's description.  On the
board with a single red piece at the bottom-left cell, the code returns 0
— its scans only credit a piece whose three-cells-ahead neighbor in the
scan direction is own-colored — while the spec's count (pieces lying on
some 4-cell line whose other cells are own-color or empty, per direction)
gives 3: the lone piece sits on potential horizontal, vertical and
diagonal lines. -/
theorem C7_evaluate_divergence :
    Board.evaluate bLone = 0 ∧ specEvaluate bLone = 3 :=
  ⟨by decide, by decide⟩

/-! ## Stabilization of the search on nearly full boards -/

theorem countP_flip_one {l : List Nat} {p q : Nat → Bool} {i : Nat}
    (hnd : l.Nodup) (hi : i ∈ l) (hpi : p i = true) (hqi : q i = false)
    (hagree : ∀ j ∈ l, j ≠ i → p j = q j) :
    l.countP q + 1 = l.countP p := by
  induction l with
  | nil => cases hi
  | cons a l ih =>
    rw [List.countP_cons, List.countP_cons]
    rcases List.mem_cons.mp hi with heq | hi'
    · have hnotin := (List.nodup_cons.mp hnd).1
      rw [heq] at hpi hqi
      have hcongr : l.countP p = l.countP q := by
        apply List.countP_congr
        intro j hj
        have hji : j ≠ i := by
          intro hji
          rw [hji, heq] at hj
          exact hnotin hj
        rw [hagree j (List.mem_cons_of_mem _ hj) hji]
      rw [hpi, hqi, hcongr]
      simp
    · have ha_ne := (List.nodup_cons.mp hnd).1
      have hane2 : ¬ (i ∈ l → False) := fun h => h hi'
      rw [hagree _ (List.mem_cons_self _ l)
        (fun hji => absurd (hji ▸ hi') ha_ne)]
      have := ih (List.nodup_cons.mp hnd).2 hi'
        (fun j hj hji => hagree j (List.mem_cons_of_mem _ hj) hji)
      omega

theorem emptyCells_insert {b : Board} {f : Nat} (hw : Board.Wf b)
    (hg : Board.gravity b) (hf7 : f < 7) (c : Color) {r : Nat}
    (hr : Board.lowestEmptyRow b f = some r) :
    Board.emptyCells (b.insert f c) + 1 = Board.emptyCells b := by
  have hall := insert_all_eq hw hg hf7 c hr
  obtain ⟨_, _, hfresh, hlt42, _⟩ := (insert_eq hw hg hf7 c).1 r hr
  unfold Board.emptyCells
  refine countP_flip_one (List.nodup_range 42) (List.mem_range.mpr hlt42) ?_ ?_ ?_
  · rw [hfresh]
    rfl
  · rw [hall, Nat.testBit_or, Nat.testBit_two_pow, decide_eq_true rfl]
    cases b.all.testBit (r * 7 + f) <;> rfl
  · intro j hj hji
    rw [hall, Nat.testBit_or, Nat.testBit_two_pow,
      decide_eq_false (fun h => hji h.symm)]
    cases b.all.testBit j <;> rfl

theorem maxLoop_congr {n : Nat} (rec1 rec2 : Board → Int → Int → Int × Board)
    (c : Color)
    (hrec1 : ∀ b' alpha' beta', Board.Wf b' → Board.gravity b' →
      (rec1 b' alpha' beta').2 = b')
    (hagree : ∀ b' alpha' beta', Board.Wf b' → Board.gravity b' →
      Board.emptyCells b' = n → rec1 b' alpha' beta' = rec2 b' alpha' beta') :
    ∀ (fs : List Nat) (b : Board) (alpha beta best : Int),
      Board.Wf b → Board.gravity b → Board.emptyCells b = n + 1 →
      (∀ f ∈ fs, f ∈ b.legalFiles) →
      maxLoop rec1 c fs b alpha beta best = maxLoop rec2 c fs b alpha beta best := by
  intro fs
  induction fs with
  | nil =>
    intro b alpha beta best _ _ _ _
    rfl
  | cons f fs ih =>
    intro b alpha beta best hw hg hcount hmem
    obtain ⟨hf7, hftop⟩ := mem_legalFiles.mp (hmem f (List.mem_cons_self f fs))
    obtain ⟨r, hr⟩ := lowestEmptyRow_isSome_of_top_empty hf7 hg hftop
    have hw1 := Wf_insert hw hf7 c
    have hg1 := gravity_insert hw hg hf7 c hr
    have hn1 : Board.emptyCells (b.insert f c) = n := by
      have := emptyCells_insert hw hg hf7 c hr
      omega
    have hr12 : rec1 (b.insert f c) alpha beta = rec2 (b.insert f c) alpha beta :=
      hagree _ _ _ hw1 hg1 hn1
    have hback : ((rec2 (b.insert f c) alpha beta).2).remove f = b := by
      rw [← hr12, hrec1 _ _ _ hw1 hg1]
      exact insert_remove hw hg hf7 c hr
    simp only [maxLoop, hr12, hback]
    split
    · rfl
    · exact ih b _ beta _ hw hg hcount
        (fun g hg' => hmem g (List.mem_cons_of_mem f hg'))

theorem minLoop_congr {n : Nat} (rec1 rec2 : Board → Int → Int → Int × Board)
    (c : Color)
    (hrec1 : ∀ b' alpha' beta', Board.Wf b' → Board.gravity b' →
      (rec1 b' alpha' beta').2 = b')
    (hagree : ∀ b' alpha' beta', Board.Wf b' → Board.gravity b' →
      Board.emptyCells b' = n → rec1 b' alpha' beta' = rec2 b' alpha' beta') :
    ∀ (fs : List Nat) (b : Board) (alpha beta best : Int),
      Board.Wf b → Board.gravity b → Board.emptyCells b = n + 1 →
      (∀ f ∈ fs, f ∈ b.legalFiles) →
      minLoop rec1 c fs b alpha beta best = minLoop rec2 c fs b alpha beta best := by
  intro fs
  induction fs with
  | nil =>
    intro b alpha beta best _ _ _ _
    rfl
  | cons f fs ih =>
    intro b alpha beta best hw hg hcount hmem
    obtain ⟨hf7, hftop⟩ := mem_legalFiles.mp (hmem f (List.mem_cons_self f fs))
    obtain ⟨r, hr⟩ := lowestEmptyRow_isSome_of_top_empty hf7 hg hftop
    have hw1 := Wf_insert hw hf7 c
    have hg1 := gravity_insert hw hg hf7 c hr
    have hn1 : Board.emptyCells (b.insert f c) = n := by
      have := emptyCells_insert hw hg hf7 c hr
      omega
    have hr12 : rec1 (b.insert f c) alpha beta = rec2 (b.insert f c) alpha beta :=
      hagree _ _ _ hw1 hg1 hn1
    have hback : ((rec2 (b.insert f c) alpha beta).2).remove f = b := by
      rw [← hr12, hrec1 _ _ _ hw1 hg1]
      exact insert_remove hw hg hf7 c hr
    simp only [minLoop, hr12, hback]
    split
    · rfl
    · exact ih b alpha _ _ hw hg hcount
        (fun g hg' => hmem g (List.mem_cons_of_mem f hg'))

theorem legalFiles_empty_of_full {b : Board}
    (h : Board.emptyCells b = 0) : b.legalFiles = [] := by
  rw [legalFiles_eq]
  have hall := List.countP_eq_zero.mp h
  apply List.filter_eq_nil_iff.mpr
  intro a ha
  rw [List.mem_range] at ha
  have := hall a (List.mem_range.mpr (by omega))
  simp only [Bool.not_eq_true'] at this ⊢
  simp at this
  rw [this]
  simp

theorem minimax_stable :
    ∀ (n d1 d2 : Nat) (b : Board) (c : Color) (alpha beta : Int),
      Board.Wf b → Board.gravity b → Board.emptyCells b = n →
      n < d1 → n < d2 →
      minimax d1 b c alpha beta = minimax d2 b c alpha beta := by
  intro n
  induction n with
  | zero =>
    intro d1 d2 b c alpha beta hw hg hn hd1 hd2
    obtain ⟨e1, rfl⟩ : ∃ e, d1 = e + 1 := ⟨d1 - 1, by omega⟩
    obtain ⟨e2, rfl⟩ : ∃ e, d2 = e + 1 := ⟨d2 - 1, by omega⟩
    have hleg := legalFiles_empty_of_full hn
    cases c <;> simp only [minimax, hleg] <;> rfl
  | succ n ih =>
    intro d1 d2 b c alpha beta hw hg hn hd1 hd2
    obtain ⟨e1, rfl⟩ : ∃ e, d1 = e + 1 := ⟨d1 - 1, by omega⟩
    obtain ⟨e2, rfl⟩ : ∃ e, d2 = e + 1 := ⟨d2 - 1, by omega⟩
    cases c with
    | Red =>
      show maxLoop _ Color.Red b.legalFiles b alpha beta intMin
        = maxLoop _ Color.Red b.legalFiles b alpha beta intMin
      exact maxLoop_congr _ _ Color.Red
        (fun b' a' b'' hw' hg' => minimax_restores e1 b' Color.Yellow a' b'' hw' hg')
        (fun b' a' b'' hw' hg' hn' =>
          ih e1 e2 b' Color.Yellow a' b'' hw' hg' hn' (by omega) (by omega))
        b.legalFiles b alpha beta intMin hw hg hn (fun f hf => hf)
    | Yellow =>
      show minLoop _ Color.Yellow b.legalFiles b alpha beta intMax
        = minLoop _ Color.Yellow b.legalFiles b alpha beta intMax
      exact minLoop_congr _ _ Color.Yellow
        (fun b' a' b'' hw' hg' => minimax_restores e1 b' Color.Red a' b'' hw' hg')
        (fun b' a' b'' hw' hg' hn' =>
          ih e1 e2 b' Color.Red a' b'' hw' hg' hn' (by omega) (by omega))
        b.legalFiles b alpha beta intMax hw hg hn (fun f hf => hf)

theorem bestMove_stable (b : Board) (c : Color) (d1 d2 : Nat)
    (hw : Board.Wf b) (hg : Board.gravity b)
    (hd1 : Board.emptyCells b ≤ d1) (hd2 : Board.emptyCells b ≤ d2) :
    bestMove b c d1 = bestMove b c d2 := by
  have hmap : b.legalFiles.map
      (fun f => (f, (minimax d1 (b.insert f c) c.other intMin intMax).1))
      = b.legalFiles.map
      (fun f => (f, (minimax d2 (b.insert f c) c.other intMin intMax).1)) := by
    apply List.map_congr_left
    intro f hf
    obtain ⟨hf7, hftop⟩ := mem_legalFiles.mp hf
    obtain ⟨r, hr⟩ := lowestEmptyRow_isSome_of_top_empty hf7 hg hftop
    have hne : 1 ≤ Board.emptyCells b := by
      have := emptyCells_insert hw hg hf7 c hr
      omega
    have hstable := minimax_stable (Board.emptyCells (b.insert f c)) d1 d2
      (b.insert f c) c.other intMin intMax (Wf_insert hw hf7 c)
      (gravity_insert hw hg hf7 c hr) rfl
      (by have := emptyCells_insert hw hg hf7 c hr; omega)
      (by have := emptyCells_insert hw hg hf7 c hr; omega)
    rw [hstable]
  unfold bestMove
  rw [hmap]

/-- C9 counterexample: on the nearly full board `bC9`, red to move has an
immediate win in column 4 (and in column 0), yellow has no winning
insertion and cannot prevent red from winning on the following move — yet
`best_move` never returns column 4: from depth 6 on (the board has 6
empty cells, so deeper searches are identical) it always returns column
0, the lowest-indexed of the tied columns.  The claim "for every
sufficiently large depth best_move returns that winning column" is
false at this input with w = 4. -/
theorem C9_counterexample :
    Board.gravity bC9 ∧ Board.Wf bC9 ∧
    bC9.hasConnect4 Color.Red = false ∧ bC9.hasConnect4 Color.Yellow = false ∧
    4 ∈ bC9.legalFiles ∧
    (bC9.insert 4 Color.Red).hasConnect4 Color.Red = true ∧
    (∀ g ∈ bC9.legalFiles,
      (bC9.insert g Color.Yellow).hasConnect4 Color.Yellow = false) ∧
    (∀ g ∈ bC9.legalFiles, ∃ f ∈ (bC9.insert g Color.Yellow).legalFiles,
      ((bC9.insert g Color.Yellow).insert f Color.Red).hasConnect4 Color.Red
        = true) ∧
    ¬ (∃ D0, ∀ d, D0 ≤ d → bestMove bC9 Color.Red d = some 4) := by
  refine ⟨by decide, by decide, by decide, by decide, by decide, by decide,
    by decide, by decide, ?_⟩
  rintro ⟨D0, hD0⟩
  have hcell : Board.emptyCells bC9 = 6 := by decide
  have hst : bestMove bC9 Color.Red (max D0 6) = bestMove bC9 Color.Red 6 :=
    bestMove_stable bC9 Color.Red _ 6 (by decide) (by decide)
      (by omega) (by omega)
  have hval : bestMove bC9 Color.Red 6 = some 0 := by decide
  have h := hD0 (max D0 6) (le_max_left _ _)
  rw [hst, hval] at h
  exact absurd h (by decide)

/-- C9 (amended): if inserting column w completes a connect-4 for the
moving color, w is legal, and no other legal column completes one, then
`best_move` at depth 0 returns w (the winning child scores ±100 and every
other child scores 0, a strict optimum).  At larger depths the claim as
stated fails: with an unstoppable double threat every child forces a win,
the scores tie, and the lowest-indexed column is returned (see the
counterexample). -/
theorem C9_bestMove_immediate_win (b : Board) (c : Color) (w : Nat)
    (hin : w ∈ b.legalFiles)
    (hwin : (b.insert w c).hasConnect4 c = true)
    (huniq : ∀ f ∈ b.legalFiles, f ≠ w →
      (b.insert f c).hasConnect4 c = false) :
    bestMove b c 0 = some w := by
  have hne : b.legalFiles ≠ [] := fun h => by
    rw [h] at hin
    cases hin
  have hpw : (b.legalFiles).Pairwise (· < ·) := by
    rw [legalFiles_eq]
    exact List.Pairwise.filter _ (List.pairwise_lt_range 7)
  cases c with
  | Red =>
    have hsc : ∀ f, (minimax 0 (b.insert f Color.Red) Color.Red.other intMin
        intMax).1 =
        (if (b.insert f Color.Red).hasConnect4 Color.Red = true then (100 : Int)
          else 0) := by
      intro f
      simp [minimax, Color.other]
    obtain ⟨w', hbm, hmem, hopt, hfirst⟩ :=
      sorted_head_best (fun x y : Nat × Int => y.2 ≤ x.2)
        (fun a b => le_total b.2 a.2)
        (fun a b c hab hbc => le_trans hbc hab) b.legalFiles
        (fun f => (minimax 0 (b.insert f Color.Red) Color.Red.other intMin
          intMax).1) hpw hne
    have h1 := hopt w hin
    have hw' : w' = w := by
      by_contra hne'
      have h2 := hsc w'
      rw [huniq w' hmem hne', if_neg (by decide)] at h2
      have h3 := hsc w
      rw [hwin, if_pos rfl] at h3
      rw [h2, h3] at h1
      omega
    rw [← hw']
    exact hbm
  | Yellow =>
    have hsc : ∀ f, (minimax 0 (b.insert f Color.Yellow) Color.Yellow.other
        intMin intMax).1 =
        (if (b.insert f Color.Yellow).hasConnect4 Color.Yellow = true then
          (-100 : Int) else 0) := by
      intro f
      simp [minimax, Color.other]
    obtain ⟨w', hbm, hmem, hopt, hfirst⟩ :=
      sorted_head_best (fun x y : Nat × Int => x.2 ≤ y.2)
        (fun a b => le_total a.2 b.2)
        (fun a b c hab hbc => le_trans hab hbc) b.legalFiles
        (fun f => (minimax 0 (b.insert f Color.Yellow) Color.Yellow.other
          intMin intMax).1) hpw hne
    have h1 := hopt w hin
    have hw' : w' = w := by
      by_contra hne'
      have h2 := hsc w'
      rw [huniq w' hmem hne', if_neg (by decide)] at h2
      have h3 := hsc w
      rw [hwin, if_pos rfl] at h3
      rw [h2, h3] at h1
      omega
    rw [← hw']
    exact hbm

/-- C9 witness: red has a unique immediate vertical win in column 0 on
`bWin`, and depth-0 `best_move` returns it. -/
theorem C9_bestMove_immediate_win_witness : bestMove bWin Color.Red 0 = some 0 :=
  C9_bestMove_immediate_win bWin Color.Red 0 (by decide) (by decide) (by decide)
